import Mathlib

/-!
Verification of the extraction-and-matching pipeline of `summarize.py`
(Research-Summarizer).  The Python source is shallowly embedded: strings
are modelled as `List Char`, the HTML document tree (the output of the
external BeautifulSoup parser) as a first-child/next-sibling tree `Dom`,
parsed JSON values as the inductive `Json`, and every fallible Python
operation (an operation that can raise) as an `Option`-valued function.
Printing is modelled by returning the printed signal as data.
-/

/-! ## Character and string utilities

Python string primitives used by `summarize.py` are modelled over
`List Char`.  Pythons `str.lower`, `str.strip` and the regex class `\s`
are Unicode-aware; the model uses the ASCII fragment (`Char.toLower`,
the six ASCII whitespace characters), which coincides with Python on
ASCII data.
-/

/-- The characters matched by the regex class `\s` (ASCII fragment):
space, tab, newline, carriage return, vertical tab, form feed.  Also the
set stripped by Python's `str.strip()`. -/
def isWsChar (c : Char) : Bool :=
  c = ' ' || c = '\t' || c = '\n' || c = '\r' || c = '\x0b' || c = '\x0c'

/-- Model of Python `str.lower()`: lower-case each character. -/
def pyLower (l : List Char) : List Char := l.map Char.toLower

/-- `startsWithSeq pat s` is true iff `pat` is a prefix of `s`
(model of Python `str.startswith` / anchored literal matching). -/
def startsWithSeq : List Char → List Char → Bool
  | [], _ => true
  | _ :: _, [] => false
  | p :: ps, c :: cs => p == c && startsWithSeq ps cs

/-- `containsSeq pat s` is true iff `pat` occurs as a contiguous
subsequence of `s`: the model of Python's substring test `pat in s`. -/
def containsSeq (pat : List Char) : List Char → Bool
  | [] => startsWithSeq pat []
  | c :: cs => startsWithSeq pat (c :: cs) || containsSeq pat cs

/-- Length of the maximal leading whitespace run (used to model the
greedy regex pieces `\s*` and `\s+`). -/
def wsRun : List Char → Nat
  | [] => 0
  | c :: cs => if isWsChar c then wsRun cs + 1 else 0

/-- Drop leading whitespace (model of the left half of `str.strip()`). -/
def dropWsLeft (l : List Char) : List Char := l.dropWhile isWsChar

/-- Model of Python `str.strip()` (no argument): remove leading and
trailing whitespace. -/
def stripWs (l : List Char) : List Char :=
  (dropWsLeft l).rdropWhile isWsChar

/-- Model of Python `str.rstrip(";")`: remove every trailing `';'`. -/
def rstripSemi (l : List Char) : List Char := l.rdropWhile (· == ';')

/-- Model of the regex substitution `re.sub(r"\s+", " ", txt)`: each
maximal whitespace run is replaced by a single space.  The flag records
whether the previous character belonged to a run that has already
emitted its space. -/
def collapseWsAux (inRun : Bool) : List Char → List Char
  | [] => []
  | c :: cs =>
    if isWsChar c then
      if inRun then collapseWsAux true cs else ' ' :: collapseWsAux true cs
    else c :: collapseWsAux false cs

/-- `re.sub(r"\s+", " ", txt)` on a whole string. -/
def collapseWs (l : List Char) : List Char := collapseWsAux false l

/-- Model of `re.sub(r"\s+", " ", txt).strip()`, the normalisation
applied to every university cell text. -/
def normWs (l : List Char) : List Char := stripWs (collapseWs l)

/-- Python code-point string comparison `a <= b` (lexicographic on code
points), used by `list.sort` on strings. -/
def charListLe : List Char → List Char → Bool
  | [], _ => true
  | _ :: _, [] => false
  | a :: as, b :: bs => a.toNat < b.toNat || (a == b && charListLe as bs)

/-! ## The similarity metric (`text_similarity`, line 34–35)

`text_similarity` calls the Python standard library's
`difflib.SequenceMatcher(None, a.lower(), b.lower()).ratio()`.  The
library (external to the repository) is modelled by its documented core
algorithm: repeatedly find the longest matching contiguous block
(earliest in `a`, then earliest in `b`, among the longest), recurse on
the pieces to the left and to the right of the block, and sum the block
lengths; the ratio is `2*M/T` where `M` is that sum and `T` the total
length of both inputs (`1` when both are empty).  The `autojunk`
heuristic, which on inputs of length ≥ 200 stops certain frequent
characters from anchoring a block, is not modelled; it never moves the
ratio outside `[0,1]`. -/

/-- Common prefix length of two character lists. -/
def cpl : List Char → List Char → Nat
  | a :: as, b :: bs => if a = b then cpl as bs + 1 else 0
  | _, _ => 0

/-- All candidate matching blocks `(i, j, k)`: at every pair of start
positions, the maximal block length is the common prefix length of the
two suffixes. -/
def blockCands (a b : List Char) : List (Nat × Nat × Nat) :=
  (List.range a.length).flatMap fun i =>
    (List.range b.length).map fun j => (i, j, cpl (a.drop i) (b.drop j))

/-- Keep the candidate with the strictly largest block length; ties keep
the earlier candidate, so the scan order (increasing `i`, then `j`)
realises `find_longest_match`'s earliest-block tie-breaking. -/
def pickBlock (l : List (Nat × Nat × Nat)) : Nat × Nat × Nat :=
  l.foldl (fun best c => if best.2.2 < c.2.2 then c else best) (0, 0, 0)

/-- `SequenceMatcher.find_longest_match` over the whole of `a` and `b`. -/
def findLongestMatch (a b : List Char) : Nat × Nat × Nat :=
  pickBlock (blockCands a b)

/-- Total size `M` of the matching blocks (`get_matching_blocks`):
take the longest block and recurse on both sides.  Fuel-based so that
the definition evaluates by kernel reduction; `a.length + b.length`
fuel always suffices because each recursive call strictly shrinks the
combined length. -/
def matchTotal : Nat → List Char → List Char → Nat
  | 0, _, _ => 0
  | fuel + 1, a, b =>
    let m := findLongestMatch a b
    if m.2.2 = 0 then 0
    else
      matchTotal fuel (a.take m.1) (b.take m.2.1) + m.2.2 +
        matchTotal fuel (a.drop (m.1 + m.2.2)) (b.drop (m.2.1 + m.2.2))

/-- `SequenceMatcher.ratio()`: `2*M/T`, and `1.0` when `T = 0`. -/
def matcherScore (a b : List Char) : ℚ :=
  if a.length + b.length = 0 then 1
  else 2 * (matchTotal (a.length + b.length) a b : ℚ) / ((a.length : ℚ) + b.length)

/-- `text_similarity` (line 34–35): the ratio of the lower-cased
inputs. -/
def text_similarity (a b : List Char) : ℚ :=
  matcherScore (pyLower a) (pyLower b)

/-! ## The university matcher (`find_best_matching_university`, line 134–159) -/

/-- One row of the rankings table: `{"id": tr_id, "name": uni_name}`. -/
structure Institution where
  id : String
  name : String
deriving DecidableEq, Repr

/-- The score given to one candidate (lines 146–151): the similarity of
its name to the query, raised to at least `0.95` when the lower-cased
query is a substring of the lower-cased name. -/
def candScore (query : String) (u : Institution) : ℚ :=
  let score := text_similarity u.name.data query.data
  if containsSeq (pyLower query.data) (pyLower u.name.data) then max score 0.95
  else score

/-- Stable descending insertion by a rational key: an existing entry
keeps its place unless its key is strictly smaller, so equal keys stay
in input order. -/
def insDesc {α : Type} (key : α → ℚ) (x : α) : List α → List α
  | [] => [x]
  | y :: ys => if key x < key y then y :: insDesc key x ys else x :: y :: ys

/-- Model of Python's stable `list.sort(reverse=True, key=...)` (line
153): sorted descending by key, ties in input order. -/
def sortDesc {α : Type} (key : α → ℚ) : List α → List α
  | [] => []
  | x :: xs => insDesc key x (sortDesc key xs)

/-- The selection core of `find_best_matching_university` (lines
145–159), given the already-parsed list of institutions: score each
one, sort descending (stably), take the head, and reject it when its
score is below `0.4`.  The Python `(None, None)` return is modelled as
`none`. -/
def best_match (univs : List Institution) (query : String) :
    Option (String × String) :=
  match univs with
  | [] => none
  | _ :: _ =>
    let scored := univs.map fun u => (candScore query u, u.name, u.id)
    match sortDesc (fun t => t.1) scored with
    | [] => none
    | (s, nm, tid) :: _ => if s < 0.4 then none else some (nm, tid)

/-! ## The document tree

BeautifulSoup's HTML parsing is external to the repository; the model
works on the already-parsed document tree.  A tree is encoded
first-child/next-sibling so that every traversal is structurally
recursive: `nilD` ends a sibling chain, `textD s next` is a text node
followed by its next sibling, and `elemD tag attrs child next` is an
element whose children form the chain `child`, followed by its next
sibling.  All traversals below visit a node before its descendants and
its descendants before its later siblings, which is exactly
BeautifulSoup's document order. -/

inductive Dom where
  | nilD
  | textD (s : String) (next : Dom)
  | elemD (tag : String) (attrs : List (String × String)) (child : Dom) (next : Dom)

/-- First value bound to `key` in an attribute list (`tag.get(key)`). -/
def getAttr (attrs : List (String × String)) (key : String) : Option String :=
  match attrs with
  | [] => none
  | (k, v) :: rest => if k == key then some v else getAttr rest key

/-- Split into maximal non-whitespace chunks (the multi-valued `class`
attribute as BeautifulSoup exposes it); `cur` accumulates the current
chunk in reverse. -/
def splitWsAux (cur : List Char) : List Char → List (List Char)
  | [] => if cur.isEmpty then [] else [cur.reverse]
  | c :: cs =>
    if isWsChar c then
      if cur.isEmpty then splitWsAux [] cs else cur.reverse :: splitWsAux [] cs
    else splitWsAux (c :: cur) cs

/-- Does the `class` attribute of `attrs` contain the class `cls`
(the CSS selector piece `.cls`)? -/
def hasClassA (attrs : List (String × String)) (cls : String) : Bool :=
  (splitWsAux [] ((getAttr attrs "class").getD "").data).contains cls.data

/-- All text-node strings of a chain, in document order. -/
def textsOf : Dom → List String
  | .nilD => []
  | .textD s nx => s :: textsOf nx
  | .elemD _ _ c nx => textsOf c ++ textsOf nx

/-- Model of `get_text(" ", strip=True)` applied to a node whose child
chain is `f`: each text string is stripped, empty ones are dropped, the
rest are joined with single spaces. -/
def getTextSep (f : Dom) : String :=
  String.intercalate " "
    (((textsOf f).map fun s => String.mk (stripWs s.data)).filter fun s => !s.data.isEmpty)

/-! ## The search result extractor (`extract_gs_result_links`, line 38–89) -/

/-- First (document order) `a` descendant carrying an `href` attribute
that sits below an `h3` with class `gs_rt`: the CSS selection
`card.select_one("h3.gs_rt a[href]")`, returning the raw `href`. -/
def titleAnchorHref (insideH3 : Bool) : Dom → Option String
  | .nilD => none
  | .textD _ nx => titleAnchorHref insideH3 nx
  | .elemD t a c nx =>
    match if insideH3 && t == "a" then getAttr a "href" else none with
    | some h => some h
    | none =>
      match titleAnchorHref (insideH3 || (t == "h3" && hasClassA a "gs_rt")) c with
      | some h => some h
      | none => titleAnchorHref insideH3 nx

/-- Model of `requests.compat.urljoin("https://scholar.google.com", h)`
for the hrefs the source resolves (those starting with `/`): a
scheme-relative `//…` gets the scheme, any other `/…` is appended to
the base. -/
def resolveHref (h : List Char) : String :=
  if startsWithSeq "//".data h then String.mk ("https:".data ++ h)
  else if startsWithSeq "/".data h then String.mk ("https://scholar.google.com".data ++ h)
  else String.mk h

/-- The per-card body of the extraction loop (lines 56–67): take the
title anchor, skip the card if there is none or its stripped href is
empty, resolve a leading-slash href against the base. -/
def cardLink (kids : Dom) : List String :=
  match titleAnchorHref false kids with
  | none => []
  | some h =>
    let hs := stripWs h.data
    if hs.isEmpty then [] else [resolveHref hs]

/-- The card loop over `soup.select("#gs_res_ccl .gs_r.gs_or")`:
`inside` is true below an element with id `gs_res_ccl`; every element
there carrying both classes `gs_r` and `gs_or` is a result card, in
document order. -/
def collectCardLinks (inside : Bool) : Dom → List String
  | .nilD => []
  | .textD _ nx => collectCardLinks inside nx
  | .elemD _ a c nx =>
    (if inside && hasClassA a "gs_r" && hasClassA a "gs_or" then cardLink c else []) ++
      collectCardLinks (inside || (getAttr a "id" == some "gs_res_ccl")) c ++
      collectCardLinks inside nx

/-- First element with class `gs_ab_mdw` below an element with id
`gs_ab_md` (`soup.select_one("#gs_ab_md .gs_ab_mdw")`), returning its
child chain. -/
def findMdw (inside : Bool) : Dom → Option Dom
  | .nilD => none
  | .textD _ nx => findMdw inside nx
  | .elemD _ a c nx =>
    if inside && hasClassA a "gs_ab_mdw" then some c
    else
      match findMdw (inside || (getAttr a "id" == some "gs_ab_md")) c with
      | some r => some r
      | none => findMdw inside nx

/-- First element with the given id, returning its child chain
(`soup.select_one("#id")`). -/
def findByIdForest (idv : String) : Dom → Option Dom
  | .nilD => none
  | .textD _ nx => findByIdForest idv nx
  | .elemD _ a c nx =>
    if getAttr a "id" == some idv then some c
    else
      match findByIdForest idv c with
      | some r => some r
      | none => findByIdForest idv nx

/-- The results-summary header element (line 70): `.gs_ab_mdw` under
`#gs_ab_md` if present, otherwise `#gs_ab_md` itself. -/
def headerForest (doc : Dom) : Option Dom :=
  match findMdw false doc with
  | some f => some f
  | none => findByIdForest "gs_ab_md" doc

/-- Character class `[\d,]` of the header regex. -/
def isDigitComma (c : Char) : Bool := c.isDigit || c = ','

/-- One attempt of `re.search(r"([\d,]+)\s+results?", …, re.I)` at the
current position: a maximal non-empty digit-or-comma run, at least one
whitespace character, then `result` case-insensitively (the trailing
`s?` cannot affect whether the search succeeds).  Returns group 1. -/
def matchTotalAt (s : List Char) : Option (List Char) :=
  let g := s.takeWhile isDigitComma
  if g.isEmpty then none
  else
    let after := s.drop g.length
    let w := wsRun after
    if w == 0 then none
    else if startsWithSeq "result".data (pyLower (after.drop w)) then some g
    else none

/-- `re.search` scanning: try every position left to right. -/
def searchTotal : List Char → Option (List Char)
  | [] => none
  | c :: cs =>
    match matchTotalAt (c :: cs) with
    | some g => some g
    | none => searchTotal cs

/-- Decimal value of a digit list. -/
def natOfDigits (l : List Char) : Nat :=
  l.foldl (fun n c => n * 10 + (c.toNat - '0'.toNat)) 0

/-- `int(m.group(1).replace(",", ""))` under the enclosing
`try/except` (lines 76–79): dropping the commas, a run of only commas
leaves the empty string, whose `int` raises and yields `None`. -/
def parseTotalGroup (g : List Char) : Option Nat :=
  let ds := g.filter fun c => c != ','
  if ds.isEmpty then none else some (natOfDigits ds)

/-- The reported total of the results page (lines 69–79): header text
via `get_text(" ", strip=True)`, regex search, integer conversion. -/
def totalOf (doc : Dom) : Option Nat :=
  match headerForest doc with
  | none => none
  | some f =>
    match searchTotal (getTextSep f).data with
    | none => none
    | some g => parseTotalGroup g

/-- The printed verification outcome of lines 81–88, modelled as a
returned value: `verified` for the "Verified" print, `countMismatch`
for the expected/got error print, `totalMissing` when no total could be
parsed. -/
inductive VerifySignal where
  | verified
  | countMismatch
  | totalMissing
deriving DecidableEq, Repr

/-- `extract_gs_result_links` (lines 38–89) on a parsed page: the link
list together with the verification signal.  The source computes
`expected = min(10, total_results)` and compares it with the number of
extracted links; either way the link list is returned. -/
def extract_gs_result_links (doc : Dom) : List String × VerifySignal :=
  let links := collectCardLinks false doc
  match totalOf doc with
  | none => (links, .totalMissing)
  | some n => if min 10 n = links.length then (links, .verified) else (links, .countMismatch)

/-! ## The roster table parser (`list_universities_from_main_table`,
line 106–131, and `_clean_university_cell_text`, line 92–103) -/

/-- Remove the first (document order) `span` element together with its
subtree: `td.find("span")` followed by `span.decompose()`.  The flag
reports whether a span was found, so the search stops at the first
one. -/
def rmSpan : Dom → Dom × Bool
  | .nilD => (.nilD, false)
  | .textD s nx =>
    let r := rmSpan nx
    (.textD s r.1, r.2)
  | .elemD t a c nx =>
    if t == "span" then (nx, true)
    else
      let rc := rmSpan c
      if rc.2 then (.elemD t a rc.1 nx, true)
      else
        let rn := rmSpan nx
        (.elemD t a c rn.1, rn.2)

/-- `_clean_university_cell_text` (lines 92–103) on the child chain of
the university `td`: drop the first `span` (the `+` expander), take
`get_text(" ", strip=True)`, collapse whitespace runs and strip. -/
def _clean_university_cell_text (td : Dom) : String :=
  String.mk (normWs (getTextSep (rmSpan td).1).data)

/-- Direct `td` children of a row (`tr.find_all("td",
recursive=False)`): attribute list and child chain of each. -/
def directTds : Dom → List (List (String × String) × Dom)
  | .nilD => []
  | .textD _ nx => directTds nx
  | .elemD t a c nx => (if t == "td" then [(a, c)] else []) ++ directTds nx

/-- The body of the row loop (lines 116–129): skip a row whose id is
empty or contains `" dropdown"`, or which has fewer than two direct
`td` cells, or whose cleaned second-cell text is empty; otherwise emit
`{"id": tr_id, "name": uni_name}`. -/
def rowInst (attrs : List (String × String)) (kids : Dom) : Option Institution :=
  let trId := (getAttr attrs "id").getD ""
  if trId.data.isEmpty then none
  else if containsSeq " dropdown".data trId.data then none
  else
    match directTds kids with
    | _ :: td1 :: _ =>
      let nm := _clean_university_cell_text td1.2
      if nm.data.isEmpty then none else some ⟨trId, nm⟩
    | _ => none

/-- Direct `tr` children of the table body (`tbody.find_all("tr",
recursive=False)`). -/
def directTrs : Dom → List (List (String × String) × Dom)
  | .nilD => []
  | .textD _ nx => directTrs nx
  | .elemD t a c nx => (if t == "tr" then [(a, c)] else []) ++ directTrs nx

/-- `soup.find("tbody", id="tablebody")`: first element in document
order with tag `tbody` and id attribute `tablebody`, returning its
child chain. -/
def findTbody : Dom → Option Dom
  | .nilD => none
  | .textD _ nx => findTbody nx
  | .elemD t a c nx =>
    if t == "tbody" && (getAttr a "id" == some "tablebody") then some c
    else
      match findTbody c with
      | some r => some r
      | none => findTbody nx

/-- `list_universities_from_main_table` (lines 106–131): empty when the
table body is missing, otherwise the qualifying direct child rows in
document order. -/
def list_universities_from_main_table (doc : Dom) : List Institution :=
  match findTbody doc with
  | none => []
  | some tbodyKids => (directTrs tbodyKids).filterMap fun r => rowInst r.1 r.2

/-- `find_best_matching_university` (lines 134–159) after the fetch:
parse the rankings page into institutions and run the scored
selection. -/
def find_best_matching_university (doc : Dom) (query : String) :
    Option (String × String) :=
  best_match (list_universities_from_main_table doc) query

/-! ## Parsed JSON values and `json.loads`

`json.loads` is standard library code; it is modelled by a recursive
descent parser for the strict JSON grammar the Python decoder uses.
Numbers are kept syntactically as mantissa and decimal exponent
(`num m e` denotes `m * 10^e`); Python's int/float distinction and
float rounding are not modelled, nor are the non-standard `NaN` and
`Infinity` literals or surrogate-pair `\u` escapes, none of which the
claims touch. -/

inductive Json where
  | null
  | bool (b : Bool)
  | num (m : Int) (e : Int)
  | str (s : String)
  | arr (elems : List Json)
  | obj (members : List (String × Json))

/-- First value bound to `key` (Python `dict` lookup on an object built
by the decoder). -/
def lookupJ (key : String) : List (String × Json) → Option Json
  | [] => none
  | (k, v) :: rest => if k == key then some v else lookupJ key rest

/-- Insertion with Python `dict` semantics: an existing key keeps its
position and gets the new value, a fresh key is appended. -/
def insertKV (k : String) (v : Json) : List (String × Json) → List (String × Json)
  | [] => [(k, v)]
  | (k', v') :: rest =>
    if k' == k then (k', v) :: rest else (k', v') :: insertKV k v rest

/-- The whitespace skipped between JSON tokens (`json.decoder`'s
` \t\n\r`). -/
def jsonWsChar (c : Char) : Bool := c = ' ' || c = '\t' || c = '\n' || c = '\r'

/-- Skip inter-token whitespace. -/
def skipJWs (l : List Char) : List Char := l.dropWhile jsonWsChar

/-- Value of a hex digit, if any, by code point: `0`–`9` are 48–57,
`A`–`F` are 65–70, `a`–`f` are 97–102. -/
def hexVal (c : Char) : Option Nat :=
  let n := c.toNat
  if 48 ≤ n ∧ n ≤ 57 then some (n - 48)
  else if 97 ≤ n ∧ n ≤ 102 then some (n - 87)
  else if 65 ≤ n ∧ n ≤ 70 then some (n - 55)
  else none

/-- Body of a JSON string after the opening quote: content up to the
closing quote and the remaining input.  Escapes are the eight
single-character ones plus `\uXXXX`; raw control characters are
rejected (the decoder is strict). -/
def parseStrBody : List Char → Option (List Char × List Char)
  | [] => none
  | '"' :: rest => some ([], rest)
  | '\\' :: 'u' :: h1 :: h2 :: h3 :: h4 :: rest =>
    match hexVal h1, hexVal h2, hexVal h3, hexVal h4 with
    | some a, some b, some c, some d =>
      (parseStrBody rest).map fun p =>
        (Char.ofNat (((a * 16 + b) * 16 + c) * 16 + d) :: p.1, p.2)
    | _, _, _, _ => none
  | '\\' :: e :: rest =>
    match
      (match e with
       | '"' => some '"'
       | '\\' => some '\\'
       | '/' => some '/'
       | 'b' => some '\x08'
       | 'f' => some '\x0c'
       | 'n' => some '\n'
       | 'r' => some '\r'
       | 't' => some '\t'
       | _ => none) with
    | some c => (parseStrBody rest).map fun p => (c :: p.1, p.2)
    | none => none
  | c :: rest =>
    if c.toNat < 0x20 then none
    else (parseStrBody rest).map fun p => (c :: p.1, p.2)

/-- A JSON number per the strict decoder regex
`-?(?:0|[1-9]\d*)(\.\d+)?([eE][-+]?\d+)?`: returns mantissa, decimal
exponent and the remaining input. -/
def parseNum (s : List Char) : Option (Int × Int × List Char) :=
  let sgn : Bool × List Char := match s with
    | '-' :: r => (true, r)
    | _ => (false, s)
  let intPart : List Char := match sgn.2 with
    | '0' :: _ => ['0']
    | r => r.takeWhile Char.isDigit
  if intPart.isEmpty then none
  else
    let afterInt := sgn.2.drop intPart.length
    let frac : Option (List Char × List Char) := match afterInt with
      | '.' :: r =>
        let fd := r.takeWhile Char.isDigit
        if fd.isEmpty then none else some (fd, r.drop fd.length)
      | _ => some ([], afterInt)
    match frac with
    | none => none
    | some (fd, afterFrac) =>
      let expo : Option (Int × List Char) := match afterFrac with
        | 'e' :: r | 'E' :: r =>
          let esgn : Bool × List Char := match r with
            | '+' :: r' => (false, r')
            | '-' :: r' => (true, r')
            | _ => (false, r)
          let ed := esgn.2.takeWhile Char.isDigit
          if ed.isEmpty then none
          else some (if esgn.1 then -(natOfDigits ed : Int) else (natOfDigits ed : Int),
                     esgn.2.drop ed.length)
        | _ => some (0, afterFrac)
      match expo with
      | none => none
      | some (ev, rest) =>
        let mag : Int := natOfDigits (intPart ++ fd)
        some (if sgn.1 then -mag else mag, ev - fd.length, rest)

mutual

/-- One JSON value: leading whitespace, then an object, array, string,
literal or number.  The fuel argument only bounds the recursion; the
top-level call supplies more fuel than the input has characters, which
always suffices because every recursive call first consumes input. -/
def parseVal : Nat → List Char → Option (Json × List Char)
  | 0, _ => none
  | fuel + 1, s =>
    match skipJWs s with
    | '{' :: r => parseMembers fuel (skipJWs r) true []
    | '[' :: r => parseElems fuel (skipJWs r) true []
    | '"' :: r => (parseStrBody r).map fun p => (Json.str (String.mk p.1), p.2)
    | 't' :: 'r' :: 'u' :: 'e' :: r => some (.bool true, r)
    | 'f' :: 'a' :: 'l' :: 's' :: 'e' :: r => some (.bool false, r)
    | 'n' :: 'u' :: 'l' :: 'l' :: r => some (.null, r)
    | s' => (parseNum s').map fun t => (Json.num t.1 t.2.1, t.2.2)

/-- Members of an object after `{` (input already whitespace-skipped):
either the closing brace (only before the first member), or a
`"key" : value` member followed by `,` or `}`. -/
def parseMembers : Nat → List Char → Bool → List (String × Json) →
    Option (Json × List Char)
  | 0, _, _, _ => none
  | fuel + 1, s, first, acc =>
    match s, first with
    | '}' :: r, true => some (.obj acc, r)
    | '"' :: r, _ =>
      match parseStrBody r with
      | none => none
      | some (k, r2) =>
        match skipJWs r2 with
        | ':' :: r3 =>
          match parseVal fuel r3 with
          | none => none
          | some (v, r4) =>
            match skipJWs r4 with
            | ',' :: r5 => parseMembers fuel (skipJWs r5) false (insertKV (String.mk k) v acc)
            | '}' :: r5 => some (.obj (insertKV (String.mk k) v acc), r5)
            | _ => none
        | _ => none
    | _, _ => none

/-- Elements of an array after `[` (input already whitespace-skipped). -/
def parseElems : Nat → List Char → Bool → List Json → Option (Json × List Char)
  | 0, _, _, _ => none
  | fuel + 1, s, first, acc =>
    match s, first with
    | ']' :: r, true => some (.arr acc, r)
    | _, _ =>
      match parseVal fuel s with
      | none => none
      | some (v, r2) =>
        match skipJWs r2 with
        | ',' :: r3 => parseElems fuel (skipJWs r3) false (acc ++ [v])
        | ']' :: r3 => some (.arr (acc ++ [v]), r3)
        | _ => none

end

/-- `json.loads`: parse one value and require only whitespace after
it. -/
def jsonParse (s : List Char) : Option Json :=
  match parseVal (s.length + 1) s with
  | some (v, rest) => if (skipJWs rest).isEmpty then some v else none
  | none => none

/-! ## The embedded object loader (`load_js_object`, line 162–177)

The two `re.sub` calls are modelled by explicit scanners.  `re.sub`
replaces every non-overlapping occurrence, scanning left to right;
both patterns always consume at least one character, and the greedy
pieces `\s+`/`\s*` followed by a literal backtrack at most over the
whitespace run, which the matchers below reproduce.  The regex classes
`\s` and `\w` are modelled by their ASCII fragments. -/

/-- The regex class `\w` (ASCII fragment), for the word boundary
`\b`. -/
def isWordChar (c : Char) : Bool := c.isAlphanum || c = '_'

/-- The word boundary `\b` in front of the word character `l`: holds at
the start of the input or after a non-word character. -/
def boundaryOk (prev : Option Char) : Bool :=
  match prev with
  | none => true
  | some c => !isWordChar c

/-- The `\s+NAME\s*=\s*` tail of pattern 1, starting right after `let`:
try whitespace runs of length `k, k-1, …, 1` (greedy `\s+` with
backtracking), then the literal name, greedy `\s*`, `=`, greedy `\s*`.
Returns the number of characters matched after `let`. -/
def tryLetTail (name s : List Char) : Nat → Option Nat
  | 0 => none
  | k + 1 =>
    if startsWithSeq name (s.drop (k + 1)) then
      let afterName := s.drop (k + 1 + name.length)
      let w2 := wsRun afterName
      match afterName.drop w2 with
      | '=' :: rest2 => some (k + 1 + name.length + w2 + 1 + wsRun rest2)
      | _ => tryLetTail name s k
    else tryLetTail name s k

/-- One attempt of pattern 1, `\blet\s+NAME\s*=\s*`, at the current
position (the `\b` is checked by the caller).  Returns the matched
length. -/
def matchLetAt (name s : List Char) : Option Nat :=
  match s with
  | 'l' :: 'e' :: 't' :: rest => (tryLetTail name rest (wsRun rest)).map (3 + ·)
  | _ => none

/-- The `\s*NAME\s*\}\s*;` tail of pattern 2, starting right after
`export\s*{`: the argument counts down through whitespace-run lengths
`k-1, …, 0` (greedy `\s*` with backtracking). -/
def tryExpTail (name r2 : List Char) : Nat → Option Nat
  | 0 => none
  | k + 1 =>
    if startsWithSeq name (r2.drop k) then
      let afterName := r2.drop (k + name.length)
      let w3 := wsRun afterName
      match afterName.drop w3 with
      | '}' :: r3 =>
        let w4 := wsRun r3
        match r3.drop w4 with
        | ';' :: _ => some (k + name.length + w3 + 1 + w4 + 1)
        | _ => tryExpTail name r2 k
      | _ => tryExpTail name r2 k
    else tryExpTail name r2 k

/-- One attempt of pattern 2, `export\s*\{\s*NAME\s*\}\s*;`, at the
current position.  Returns the matched length. -/
def matchExportAt (name s : List Char) : Option Nat :=
  match s with
  | 'e' :: 'x' :: 'p' :: 'o' :: 'r' :: 't' :: rest =>
    let w1 := wsRun rest
    match rest.drop w1 with
    | '{' :: r2 => (tryExpTail name r2 (wsRun r2 + 1)).map (6 + w1 + 1 + ·)
    | _ => none
  | _ => none

/-- `re.sub(pattern1, "", js_code)` (line 167–168): scan left to right,
removing every match of `\blet\s+NAME\s*=\s*`; `prev` is the character
before the current position in the original input, for the `\b` test.
The fuel starts above the input length and each step consumes at least
one character. -/
def subLetAux (name : List Char) : Nat → Option Char → List Char → List Char
  | 0, _, s => s
  | _ + 1, _, [] => []
  | fuel + 1, prev, c :: rest =>
    if boundaryOk prev then
      match matchLetAt name (c :: rest) with
      | some n => subLetAux name fuel ((c :: rest).take n).getLast? ((c :: rest).drop n)
      | none => c :: subLetAux name fuel (some c) rest
    else c :: subLetAux name fuel (some c) rest

/-- Pattern-1 removal over a whole text. -/
def subLet (name js : List Char) : List Char :=
  subLetAux name (js.length + 1) none js

/-- `re.sub(pattern2, "", js_code)` (line 171–172): remove every match
of `export\s*\{\s*NAME\s*\}\s*;` (this pattern has no `\b`). -/
def subExportAux (name : List Char) : Nat → List Char → List Char
  | 0, s => s
  | _ + 1, [] => []
  | fuel + 1, c :: rest =>
    match matchExportAt name (c :: rest) with
    | some n => subExportAux name fuel ((c :: rest).drop n)
    | none => c :: subExportAux name fuel rest

/-- Pattern-2 removal over a whole text. -/
def subExport (name js : List Char) : List Char :=
  subExportAux name (js.length + 1) js

/-- `load_js_object` (lines 162–177): remove the declaration pattern
and the export pattern everywhere, strip outer whitespace and trailing
semicolons, and parse the remainder as JSON.  A `json.loads` failure is
the `none` outcome (the uncaught `JSONDecodeError`). -/
def load_js_object (js : List Char) (varName : List Char) : Option Json :=
  jsonParse (rstripSemi (stripWs (subExport varName (subLet varName js))))

/-! ## The faculty filter (`extract_professors_from_profBySchool`,
line 180–214) -/

/-- `ALLOWED_SUBFIELDS` (line 14). -/
def ALLOWED_SUBFIELDS : List String := ["ai", "vision", "ir", "mlmining", "nlp"]

/-- One emitted record (lines 206–210): the three fields are the
results of `prof_data.get(...)`, so each is `none` when the key is
absent (Python `None`). -/
structure Prof where
  name : Option Json
  subfield : Option Json
  gscholar : Option Json

/-- The filtering loop (lines 203–210).  For each entry the code calls
`prof_data.get("subfield").lower()`: if `prof_data` is not an object or
its subfield is absent or not a string, that raises (`none`); otherwise
the entry is kept exactly when the lower-cased tag is in
`ALLOWED_SUBFIELDS`. -/
def profFilterLoop : List (String × Json) → Option (List Prof)
  | [] => some []
  | (_, pd) :: rest =>
    match pd with
    | .obj fields =>
      match lookupJ "subfield" fields with
      | some (.str s) =>
        match profFilterLoop rest with
        | none => none
        | some tail =>
          if ALLOWED_SUBFIELDS.contains (String.mk (pyLower s.data)) then
            some (⟨lookupJ "name" fields, some (.str s), lookupJ "google scholar" fields⟩ :: tail)
          else some tail
      | _ => none
    | _ => none

/-- The sort key `x.get("name")` as a string, when it is one. -/
def profNameKey (p : Prof) : Option String :=
  match p.name with
  | some (.str s) => some s
  | _ => none

/-- Stable ascending insertion by a character-list key under Python's
code-point order. -/
def insAsc {α : Type} (key : α → List Char) (x : α) : List α → List α
  | [] => [x]
  | y :: ys => if charListLe (key x) (key y) then x :: y :: ys else y :: insAsc key x ys

/-- Stable ascending insertion sort (Python's stable `list.sort`). -/
def sortAsc {α : Type} (key : α → List Char) : List α → List α
  | [] => []
  | x :: xs => insAsc key x (sortAsc key xs)

/-- `results.sort(key=lambda x: x.get("name"))` (line 212).  With at
most one element no comparison runs; otherwise every element is
compared at least once, so the sort succeeds exactly on string-valued
keys, which is how the dataset names them (comparisons between other
mutually comparable key types are conservatively mapped to the raising
outcome, which the claims never touch). -/
def sortProfs (l : List Prof) : Option (List Prof) :=
  if l.length ≤ 1 then some l
  else if l.all fun p => (profNameKey p).isSome then
    some (sortAsc (fun p => ((profNameKey p).getD "").data) l)
  else none

/-- `extract_professors_from_profBySchool` (lines 180–214) applied to
the already-loaded dataset: exact (non-fuzzy) lookup of the matched
name, `[]` when it is absent, otherwise filter and sort.  The dataset
and each institution block are objects on every non-raising path the
claims concern. -/
def extract_professors_from_profBySchool (dataset : Json) (matchedName : String) :
    Option (List Prof) :=
  match dataset with
  | .obj schools =>
    match lookupJ matchedName schools with
    | none => some []
    | some (.obj block) =>
      match profFilterLoop block with
      | none => none
      | some res => sortProfs res
    | some _ => none
  | _ => none

/-! ## The filename sanitizer (`_sanitize_filename`, line 217–226) -/

/-- The Windows-reserved characters of the regex class
`[<>:"/\|?*]`. -/
def illegalFileChars : List Char := ['<', '>', ':', '"', '/', '\\', '|', '?', '*']

/-- Model of `re.sub(r'[<>:"/\\|?*]+', "_", name)`: every maximal run
of reserved characters becomes a single underscore. -/
def replaceIllegalAux (inRun : Bool) : List Char → List Char
  | [] => []
  | c :: cs =>
    if illegalFileChars.contains c then
      if inRun then replaceIllegalAux true cs else '_' :: replaceIllegalAux true cs
    else c :: replaceIllegalAux false cs

/-- Model of `str.strip(".")`: remove leading and trailing dots. -/
def stripDots (l : List Char) : List Char :=
  (l.dropWhile (· == '.')).rdropWhile (· == '.')

/-- The sanitizer pipeline before truncation (lines 222–224):
replace reserved-character runs, collapse whitespace runs, strip
whitespace, strip dots. -/
def sanitizeCore (name : String) : List Char :=
  stripDots (stripWs (collapseWs (replaceIllegalAux false name.data)))

/-- `_sanitize_filename` (lines 217–226): `"untitled"` for the empty
name, otherwise the pipeline truncated to 180 characters when it is
longer. -/
def _sanitize_filename (name : String) : String :=
  if name.data.isEmpty then "untitled"
  else
    let s3 := sanitizeCore name
    if 180 < s3.length then String.mk (s3.take 180) else String.mk s3

/-! ## Claim-side definitions

Definitions below restate conditions in the words of the specification,
for comparison with the source-side functions above. -/

/-- First occurrence of the maximal key in `x :: xs`: the element
`scored.sort(reverse=True)[0]` denotes according to the specification
("ties broken by first occurrence in input order"). -/
def firstMaxBy {α : Type} (key : α → ℚ) : α → List α → α
  | x, [] => x
  | x, y :: ys => if key (firstMaxBy key y ys) ≤ key x then x else firstMaxBy key y ys

/-- Scanner: does pattern 1 (`\blet\s+NAME\s*=\s*`) match at any
position of `s`, where `prev` is the character preceding `s`?  This is
the condition under which `re.sub(pattern1, …)` changes `s`. -/
def hasLetMatch (name : List Char) (prev : Option Char) : List Char → Bool
  | [] => false
  | c :: rest =>
    (boundaryOk prev && (matchLetAt name (c :: rest)).isSome) ||
      hasLetMatch name (some c) rest

/-- Scanner: does pattern 2 (`export\s*\{\s*NAME\s*\}\s*;`) match at
any position of `s`? -/
def hasExportMatch (name : List Char) : List Char → Bool
  | [] => false
  | c :: rest => (matchExportAt name (c :: rest)).isSome || hasExportMatch name rest

/-- The row-emission rule in the words of the (amended) claim about the
roster parser: skip a row with an empty identifier, an identifier
containing the expandable-sub-row marker, fewer than two cells, or an
empty cleaned name; otherwise emit the identifier and the cleaned
second-cell text. -/
def claimRowEmit (r : List (String × String) × Dom) : Option Institution :=
  let trId := (getAttr r.1 "id").getD ""
  if trId.data.isEmpty || containsSeq " dropdown".data trId.data
      || (directTds r.2).length < 2 then none
  else
    match (directTds r.2)[1]? with
    | none => none
    | some td1 =>
      let nm := _clean_university_cell_text td1.2
      if nm.data.isEmpty then none else some ⟨trId, nm⟩

/-- The three skip conditions the frozen claim lists for the roster
parser: a row passing all three is one the claim says is emitted. -/
def rowQualifiesC8 (r : List (String × String) × Dom) : Bool :=
  let trId := (getAttr r.1 "id").getD ""
  !trId.data.isEmpty && !containsSeq " dropdown".data trId.data &&
    decide (2 ≤ (directTds r.2).length)

/-- A table whose single row has a non-empty ordinary identifier and
two cells, but whose university cell holds only the `+` expander span,
so its cleaned name is empty. -/
def emptyNameRowDoc : Dom :=
  .elemD "tbody" [("id", "tablebody")]
    (.elemD "tr" [("id", "r1")]
      (.elemD "td" [] (.textD "1" .nilD)
        (.elemD "td" [] (.elemD "span" [] (.textD "+" .nilD) .nilD) .nilD))
      .nilD)
    .nilD

/-- The direct rows of a small rankings table: one genuine institution
row (whose cell text needs the `+` span stripped and its whitespace
normalised) and one expandable `dropdown` detail row. -/
def rosterRows : Dom :=
  .elemD "tr" [("id", "r1")]
    (.elemD "td" [] (.textD "1" .nilD)
      (.elemD "td" []
        (.elemD "span" [] (.textD "+" .nilD) (.textD " Brown  University " .nilD))
        .nilD))
    (.elemD "tr" [("id", "r2 dropdown")] (.textD "x" .nilD) .nilD)

/-- A rankings page holding `rosterRows` in its table body. -/
def rosterDoc : Dom :=
  .elemD "tbody" [("id", "tablebody")] rosterRows .nilD

/-- A results page with one result card and a header reporting one
result, used to instantiate the verification claim. -/
def onePageDoc : Dom :=
  .elemD "div" [("id", "gs_res_ccl")]
    (.elemD "div" [("class", "gs_r gs_or")]
      (.elemD "h3" [("class", "gs_rt")]
        (.elemD "a" [("href", "/x")] (.textD "T" .nilD) .nilD) .nilD)
      .nilD)
    (.elemD "div" [("id", "gs_ab_md")] (.textD "About 1 results (0.06 sec)" .nilD) .nilD)

/-- A one-institution dataset whose entries exercise the tag filter and
the name sort: two allow-listed subfields (one upper-case) and one
outside the list. -/
def sampleDataset : Json :=
  .obj [("U", .obj
    [("1", .obj [("name", .str "Zed"), ("subfield", .str "AI"),
                 ("google scholar", .str "u1")]),
     ("2", .obj [("name", .str "Ann"), ("subfield", .str "theory")]),
     ("3", .obj [("name", .str "Bob"), ("subfield", .str "nlp")])])]

/-! ## Lemmas about the similarity metric -/

theorem cpl_le_left : ∀ a b : List Char, cpl a b ≤ a.length := by
  intro a
  induction a with
  | nil => intro b; cases b <;> simp [cpl]
  | cons x xs ih =>
    intro b
    cases b with
    | nil => simp [cpl]
    | cons y ys =>
      by_cases h : x = y <;> simp [cpl, h]
      exact ih ys

theorem cpl_le_right : ∀ a b : List Char, cpl a b ≤ b.length := by
  intro a
  induction a with
  | nil => intro b; cases b <;> simp [cpl]
  | cons x xs ih =>
    intro b
    cases b with
    | nil => simp [cpl]
    | cons y ys =>
      by_cases h : x = y <;> simp [cpl, h]
      exact ih ys

theorem pickBlock_foldl_mem (l : List (Nat × Nat × Nat)) :
    ∀ init : Nat × Nat × Nat,
      l.foldl (fun best c => if best.2.2 < c.2.2 then c else best) init = init ∨
        l.foldl (fun best c => if best.2.2 < c.2.2 then c else best) init ∈ l := by
  induction l with
  | nil => intro init; left; rfl
  | cons c cs ih =>
    intro init
    simp only [List.foldl_cons]
    rcases ih (if init.2.2 < c.2.2 then c else init) with h | h
    · rw [h]
      by_cases hc : init.2.2 < c.2.2
      · right; simp [hc]
      · left; simp [hc]
    · right; exact List.mem_cons_of_mem _ h

theorem blockCands_bound {a b : List Char} {c : Nat × Nat × Nat}
    (h : c ∈ blockCands a b) :
    c.1 + c.2.2 ≤ a.length ∧ c.2.1 + c.2.2 ≤ b.length := by
  simp only [blockCands, List.mem_flatMap, List.mem_map, List.mem_range] at h
  obtain ⟨i, hi, j, hj, rfl⟩ := h
  dsimp only
  constructor
  · have h1 : cpl (a.drop i) (b.drop j) ≤ a.length - i := by
      simpa using cpl_le_left (a.drop i) (b.drop j)
    omega
  · have h2 : cpl (a.drop i) (b.drop j) ≤ b.length - j := by
      simpa using cpl_le_right (a.drop i) (b.drop j)
    omega

theorem findLongestMatch_bound (a b : List Char) :
    (findLongestMatch a b).1 + (findLongestMatch a b).2.2 ≤ a.length ∧
      (findLongestMatch a b).2.1 + (findLongestMatch a b).2.2 ≤ b.length := by
  have h := pickBlock_foldl_mem (blockCands a b) (0, 0, 0)
  unfold findLongestMatch pickBlock
  rcases h with h | h
  · rw [h]; simp
  · exact blockCands_bound h

theorem matchTotal_le_left : ∀ (fuel : Nat) (a b : List Char),
    matchTotal fuel a b ≤ a.length := by
  intro fuel
  induction fuel with
  | zero => intro a b; simp [matchTotal]
  | succ n ih =>
    intro a b
    rw [matchTotal]
    by_cases hk : (findLongestMatch a b).2.2 = 0
    · simp [hk]
    · simp only [hk, if_false]
      have hb := (findLongestMatch_bound a b).1
      have h1 := ih (a.take (findLongestMatch a b).1) (b.take (findLongestMatch a b).2.1)
      have h2 := ih (a.drop ((findLongestMatch a b).1 + (findLongestMatch a b).2.2))
        (b.drop ((findLongestMatch a b).2.1 + (findLongestMatch a b).2.2))
      simp only [List.length_take, List.length_drop] at h1 h2
      omega

theorem matchTotal_le_right : ∀ (fuel : Nat) (a b : List Char),
    matchTotal fuel a b ≤ b.length := by
  intro fuel
  induction fuel with
  | zero => intro a b; simp [matchTotal]
  | succ n ih =>
    intro a b
    rw [matchTotal]
    by_cases hk : (findLongestMatch a b).2.2 = 0
    · simp [hk]
    · simp only [hk, if_false]
      have hb := (findLongestMatch_bound a b).2
      have h1 := ih (a.take (findLongestMatch a b).1) (b.take (findLongestMatch a b).2.1)
      have h2 := ih (a.drop ((findLongestMatch a b).1 + (findLongestMatch a b).2.2))
        (b.drop ((findLongestMatch a b).2.1 + (findLongestMatch a b).2.2))
      simp only [List.length_take, List.length_drop] at h1 h2
      omega

theorem matcherScore_nonneg (a b : List Char) : 0 ≤ matcherScore a b := by
  unfold matcherScore
  by_cases h : a.length + b.length = 0
  · simp [h]
  · simp only [h, if_false]
    apply div_nonneg
    · positivity
    · positivity

theorem matcherScore_le_one (a b : List Char) : matcherScore a b ≤ 1 := by
  unfold matcherScore
  by_cases h : a.length + b.length = 0
  · simp [h]
  · simp only [h, if_false]
    have hpos : (0 : ℚ) < (a.length : ℚ) + b.length := by
      have hn : 0 < a.length + b.length := Nat.pos_of_ne_zero h
      exact_mod_cast hn
    rw [div_le_one hpos]
    have h1 := matchTotal_le_left (a.length + b.length) a b
    have h2 := matchTotal_le_right (a.length + b.length) a b
    have : 2 * matchTotal (a.length + b.length) a b ≤ a.length + b.length := by omega
    calc (2 : ℚ) * (matchTotal (a.length + b.length) a b : ℚ)
        = ((2 * matchTotal (a.length + b.length) a b : Nat) : ℚ) := by push_cast; ring
      _ ≤ ((a.length + b.length : Nat) : ℚ) := by exact_mod_cast Nat.cast_le.mpr this
      _ = (a.length : ℚ) + b.length := by push_cast; ring

theorem text_similarity_nonneg (a b : List Char) : 0 ≤ text_similarity a b :=
  matcherScore_nonneg _ _

theorem text_similarity_le_one (a b : List Char) : text_similarity a b ≤ 1 :=
  matcherScore_le_one _ _

theorem candScore_nonneg (query : String) (u : Institution) :
    0 ≤ candScore query u := by
  unfold candScore
  by_cases h : containsSeq (pyLower query.data) (pyLower u.name.data) = true
  · simp only [h, if_true]
    exact le_trans (text_similarity_nonneg _ _) (le_max_left _ _)
  · simp only [h]
    simpa [h] using text_similarity_nonneg u.name.data query.data

theorem candScore_le_one (query : String) (u : Institution) :
    candScore query u ≤ 1 := by
  unfold candScore
  by_cases h : containsSeq (pyLower query.data) (pyLower u.name.data) = true
  · simp only [h, if_true]
    exact max_le (text_similarity_le_one _ _) (by norm_num)
  · simpa [h] using text_similarity_le_one u.name.data query.data

theorem candScore_substring_floor (query : String) (u : Institution)
    (h : containsSeq (pyLower query.data) (pyLower u.name.data) = true) :
    (0.95 : ℚ) ≤ candScore query u := by
  unfold candScore
  simp only [h, if_true]
  exact le_max_right _ _

/-- C1.  For every institution name and query, the similarity metric
and the score the matcher assigns are in `[0,1]`, and when the
lower-cased query occurs as a substring of the lower-cased name the
assigned score is at least `0.95`. -/
theorem spec_C1 (u : Institution) (query : String) :
    (0 ≤ text_similarity u.name.data query.data ∧
      text_similarity u.name.data query.data ≤ 1) ∧
    (0 ≤ candScore query u ∧ candScore query u ≤ 1) ∧
    (containsSeq (pyLower query.data) (pyLower u.name.data) = true →
      (0.95 : ℚ) ≤ candScore query u) :=
  ⟨⟨text_similarity_nonneg _ _, text_similarity_le_one _ _⟩,
   ⟨candScore_nonneg _ _, candScore_le_one _ _⟩,
   candScore_substring_floor _ _⟩

/-- Witness for C1 at a concrete institution and query whose
substring condition holds. -/
theorem spec_C1_witness :
    containsSeq (pyLower "brown".data) (pyLower "Brown University".data) = true ∧
    (0 ≤ candScore "brown" ⟨"r1", "Brown University"⟩ ∧
      candScore "brown" ⟨"r1", "Brown University"⟩ ≤ 1) ∧
    (0.95 : ℚ) ≤ candScore "brown" ⟨"r1", "Brown University"⟩ :=
  ⟨by decide,
   (spec_C1 ⟨"r1", "Brown University"⟩ "brown").2.1,
   (spec_C1 ⟨"r1", "Brown University"⟩ "brown").2.2 (by decide)⟩

/-! ## Lemmas about the matcher's selection -/

theorem insDesc_cons_head {α : Type} (key : α → ℚ) (x b : α) (t : List α) :
    insDesc key x (b :: t) = if key x < key b then b :: insDesc key x t else x :: b :: t := by
  rfl

theorem sortDesc_cons_head {α : Type} (key : α → ℚ) :
    ∀ (xs : List α) (x : α), ∃ t : List α,
      sortDesc key (x :: xs) = firstMaxBy key x xs :: t := by
  intro xs
  induction xs with
  | nil => intro x; exact ⟨[], rfl⟩
  | cons y ys ih =>
    intro x
    obtain ⟨t', ht'⟩ := ih y
    show ∃ t, insDesc key x (sortDesc key (y :: ys)) = _ :: t
    rw [ht', insDesc_cons_head]
    by_cases hlt : key x < key (firstMaxBy key y ys)
    · have : ¬ key (firstMaxBy key y ys) ≤ key x := not_le.mpr hlt
      refine ⟨insDesc key x t', ?_⟩
      simp only [firstMaxBy, this, if_false, hlt, if_true]
    · have : key (firstMaxBy key y ys) ≤ key x := not_lt.mp hlt
      refine ⟨firstMaxBy key y ys :: t', ?_⟩
      simp only [firstMaxBy, this, if_true, hlt, if_false]

theorem firstMaxBy_mem {α : Type} (key : α → ℚ) :
    ∀ (xs : List α) (x : α), firstMaxBy key x xs ∈ x :: xs := by
  intro xs
  induction xs with
  | nil => intro x; simp [firstMaxBy]
  | cons y ys ih =>
    intro x
    rw [firstMaxBy]
    by_cases h : key (firstMaxBy key y ys) ≤ key x
    · simp [h]
    · simp only [h, if_false]
      exact List.mem_cons_of_mem x (ih y)

theorem firstMaxBy_is_max {α : Type} (key : α → ℚ) :
    ∀ (xs : List α) (x : α), ∀ z ∈ x :: xs, key z ≤ key (firstMaxBy key x xs) := by
  intro xs
  induction xs with
  | nil =>
    intro x z hz
    rcases List.mem_cons.mp hz with rfl | h
    · simp [firstMaxBy]
    · cases h
  | cons y ys ih =>
    intro x z hz
    rw [firstMaxBy]
    by_cases h : key (firstMaxBy key y ys) ≤ key x
    · simp only [h, if_true]
      rcases List.mem_cons.mp hz with rfl | hz'
      · exact le_refl _
      · exact le_trans (ih y z hz') h
    · simp only [h, if_false]
      rcases List.mem_cons.mp hz with rfl | hz'
      · exact le_of_lt (not_le.mp h)
      · exact ih y z hz'

theorem firstMaxBy_first {α : Type} (key : α → ℚ) :
    ∀ (xs : List α) (x : α), ∃ k, ∃ hk : k < (x :: xs).length,
      (x :: xs).get ⟨k, hk⟩ = firstMaxBy key x xs ∧
      ∀ z ∈ (x :: xs).take k, key z < key (firstMaxBy key x xs) := by
  intro xs
  induction xs with
  | nil =>
    intro x
    exact ⟨0, by simp, by simp [firstMaxBy], by simp⟩
  | cons y ys ih =>
    intro x
    obtain ⟨k', hk', hget, htake⟩ := ih y
    rw [firstMaxBy]
    by_cases h : key (firstMaxBy key y ys) ≤ key x
    · refine ⟨0, by simp, by simp [h], by simp⟩
    · simp only [h, if_false]
      refine ⟨k' + 1, by simpa using Nat.succ_lt_succ hk', ?_, ?_⟩
      · simpa using hget
      · intro z hz
        rcases List.mem_cons.mp (by simpa using hz) with rfl | hz'
        · exact not_le.mp h
        · exact htake z hz'

theorem get_map_eq {α β : Type} (f : α → β) :
    ∀ (l : List α) (k : Nat) (hk : k < (l.map f).length) (hl : k < l.length),
      (l.map f).get ⟨k, hk⟩ = f (l.get ⟨k, hl⟩) := by
  intro l
  induction l with
  | nil => intro k hk hl; cases hl
  | cons x xs ih =>
    intro k hk hl
    cases k with
    | zero => rfl
    | succ n => exact ih n (by simpa using hk) (by simpa using hl)

/-- C2.  On a non-empty institution list the matcher returns no match
exactly when every candidate's score is below `0.4`; otherwise it
returns the name and id of a candidate whose score is maximal, at least
`0.4`, and strictly above every earlier candidate's score (first
occurrence wins ties). -/
theorem spec_C2 (univs : List Institution) (query : String) (hne : univs ≠ []) :
    (best_match univs query = none ↔ ∀ u ∈ univs, candScore query u < 0.4) ∧
    (∀ nm tid, best_match univs query = some (nm, tid) →
      ∃ k, ∃ hk : k < univs.length,
        nm = (univs.get ⟨k, hk⟩).name ∧ tid = (univs.get ⟨k, hk⟩).id ∧
        (0.4 : ℚ) ≤ candScore query (univs.get ⟨k, hk⟩) ∧
        (∀ u ∈ univs, candScore query u ≤ candScore query (univs.get ⟨k, hk⟩)) ∧
        (∀ u ∈ univs.take k, candScore query u < candScore query (univs.get ⟨k, hk⟩))) := by
  match univs, hne with
  | u0 :: rest, _ =>
    set f : Institution → ℚ × String × String :=
      fun u => (candScore query u, u.name, u.id) with hf
    have hmap : (u0 :: rest).map f = f u0 :: rest.map f := rfl
    obtain ⟨t, ht⟩ := sortDesc_cons_head (fun p : ℚ × String × String => p.1)
      (rest.map f) (f u0)
    set b := firstMaxBy (fun p : ℚ × String × String => p.1) (f u0) (rest.map f) with hb
    have hbm : best_match (u0 :: rest) query =
        if b.1 < 0.4 then none else some (b.2.1, b.2.2) := by
      show (match sortDesc (fun p : ℚ × String × String => p.1)
          ((u0 :: rest).map f) with
        | [] => none
        | (s, nm, tid) :: _ => if s < 0.4 then none else some (nm, tid)) = _
      rw [hmap, ht]
    have hbmem : b ∈ (u0 :: rest).map f := by
      rw [hmap]; exact firstMaxBy_mem _ _ _
    have hbmax : ∀ z ∈ (u0 :: rest).map f, z.1 ≤ b.1 := by
      rw [hmap]; exact firstMaxBy_is_max _ _ _
    constructor
    · constructor
      · intro hnone u hu
        by_cases hlt : b.1 < 0.4
        · have : candScore query u ≤ b.1 :=
            hbmax (f u) (List.mem_map_of_mem f hu)
          exact lt_of_le_of_lt this hlt
        · rw [hbm] at hnone; simp [hlt] at hnone
      · intro hall
        obtain ⟨u, hu, hub⟩ := List.mem_map.mp hbmem
        have : b.1 < 0.4 := by
          rw [← hub]; exact hall u hu
        rw [hbm]; simp [this]
    · intro nm tid hsome
      rw [hbm] at hsome
      by_cases hlt : b.1 < 0.4
      · simp [hlt] at hsome
      · simp only [hlt, if_false, Option.some.injEq, Prod.mk.injEq] at hsome
        obtain ⟨k, hk, hget, htake⟩ :=
          firstMaxBy_first (fun p : ℚ × String × String => p.1) (rest.map f) (f u0)
        rw [← hb] at hget htake
        have hklen : k < (u0 :: rest).length := by
          simpa using hk
        have hgetf : f ((u0 :: rest).get ⟨k, hklen⟩) = b := by
          rw [← hget]
          exact (get_map_eq f (u0 :: rest) k hk hklen).symm
        refine ⟨k, hklen, ?_, ?_, ?_, ?_, ?_⟩
        · rw [← hsome.1, ← hgetf]
        · rw [← hsome.2, ← hgetf]
        · have : candScore query ((u0 :: rest).get ⟨k, hklen⟩) = b.1 := by
            rw [← hgetf]
          rw [this]; exact not_lt.mp hlt
        · intro u hu
          have h1 : (f u).1 ≤ b.1 := hbmax (f u) (List.mem_map_of_mem f hu)
          have h2 : candScore query ((u0 :: rest).get ⟨k, hklen⟩) = b.1 := by
            rw [← hgetf]
          rw [h2]; exact h1
        · intro u hu
          have hmem : f u ∈ (f u0 :: rest.map f).take k := by
            have : f u ∈ ((u0 :: rest).take k).map f := List.mem_map_of_mem f hu
            rw [List.map_take] at this
            exact this
          have h1 : (f u).1 < b.1 := htake (f u) hmem
          have h2 : candScore query ((u0 :: rest).get ⟨k, hklen⟩) = b.1 := by
            rw [← hgetf]
          rw [h2]; exact h1

/-- Witness for C2 on a concrete one-element list: the match is
accepted and is the first maximal candidate. -/
theorem spec_C2_witness :
    ([⟨"r1", "Brown University"⟩] : List Institution) ≠ [] ∧
    ((best_match [⟨"r1", "Brown University"⟩] "brown" = none ↔
        ∀ u ∈ ([⟨"r1", "Brown University"⟩] : List Institution),
          candScore "brown" u < 0.4) ∧
      (∀ nm tid,
        best_match [⟨"r1", "Brown University"⟩] "brown" = some (nm, tid) →
        ∃ k, ∃ hk : k < ([⟨"r1", "Brown University"⟩] : List Institution).length,
          nm = (([⟨"r1", "Brown University"⟩] : List Institution).get ⟨k, hk⟩).name ∧
          tid = (([⟨"r1", "Brown University"⟩] : List Institution).get ⟨k, hk⟩).id ∧
          (0.4 : ℚ) ≤ candScore "brown"
            (([⟨"r1", "Brown University"⟩] : List Institution).get ⟨k, hk⟩) ∧
          (∀ u ∈ ([⟨"r1", "Brown University"⟩] : List Institution),
            candScore "brown" u ≤ candScore "brown"
              (([⟨"r1", "Brown University"⟩] : List Institution).get ⟨k, hk⟩)) ∧
          (∀ u ∈ ([⟨"r1", "Brown University"⟩] : List Institution).take k,
            candScore "brown" u < candScore "brown"
              (([⟨"r1", "Brown University"⟩] : List Institution).get ⟨k, hk⟩)))) :=
  ⟨by decide, spec_C2 [⟨"r1", "Brown University"⟩] "brown" (by decide)⟩

/-! ## Lemmas about whitespace normalisation and the sanitizer -/

theorem mem_dropWhile_mem {α : Type} (p : α → Bool) :
    ∀ l : List α, ∀ c ∈ l.dropWhile p, c ∈ l := by
  intro l
  induction l with
  | nil => intro c hc; simpa using hc
  | cons x xs ih =>
    intro c hc
    rw [List.dropWhile_cons] at hc
    by_cases hx : p x = true
    · simp only [hx, if_true] at hc
      exact List.mem_cons_of_mem _ (ih c hc)
    · simp only [hx, if_false] at hc
      exact hc

theorem head?_dropWhile_not_sat {α : Type} (p : α → Bool) :
    ∀ (l : List α) (c : α), (l.dropWhile p).head? = some c → p c = false := by
  intro l
  induction l with
  | nil => intro c hc; simp at hc
  | cons x xs ih =>
    intro c hc
    rw [List.dropWhile_cons] at hc
    by_cases hx : p x = true
    · simp only [hx, if_true] at hc
      exact ih c hc
    · rw [if_neg hx] at hc
      simp only [List.head?_cons, Option.some.injEq] at hc
      subst hc
      simpa using hx

theorem getLast?_dropWhile_eq {α : Type} (p : α → Bool) :
    ∀ l : List α, l.dropWhile p ≠ [] → (l.dropWhile p).getLast? = l.getLast? := by
  intro l
  induction l with
  | nil => intro h; simp at h
  | cons x xs ih =>
    intro h
    rw [List.dropWhile_cons] at h ⊢
    by_cases hx : p x = true
    · simp only [hx, if_true] at h ⊢
      rw [ih h]
      cases xs with
      | nil => simp at h
      | cons y ys => rw [List.getLast?_cons_cons]
    · simp [hx]

theorem mem_rdropWhile_mem {α : Type} (p : α → Bool) (l : List α) :
    ∀ c ∈ l.rdropWhile p, c ∈ l := by
  intro c hc
  unfold List.rdropWhile at hc
  rw [List.mem_reverse] at hc
  have := mem_dropWhile_mem p l.reverse c hc
  rwa [List.mem_reverse] at this

theorem head?_rdropWhile_eq {α : Type} (p : α → Bool) (l : List α) (c : α)
    (hc : (l.rdropWhile p).head? = some c) : l.head? = some c := by
  unfold List.rdropWhile at hc
  rw [List.head?_reverse] at hc
  have hne : l.reverse.dropWhile p ≠ [] := by
    intro h
    rw [h] at hc
    simp at hc
  rw [getLast?_dropWhile_eq p l.reverse hne, List.getLast?_reverse] at hc
  exact hc

theorem getLast?_rdropWhile_not_sat {α : Type} (p : α → Bool) (l : List α) (c : α)
    (hc : (l.rdropWhile p).getLast? = some c) : p c = false := by
  unfold List.rdropWhile at hc
  rw [List.getLast?_reverse] at hc
  exact head?_dropWhile_not_sat p l.reverse c hc

theorem chain'_dropWhile {α : Type} {R : α → α → Prop} (p : α → Bool) :
    ∀ l : List α, List.Chain' R l → List.Chain' R (l.dropWhile p) := by
  intro l
  induction l with
  | nil => intro h; simpa using h
  | cons x xs ih =>
    intro h
    rw [List.dropWhile_cons]
    by_cases hx : p x = true
    · simp only [hx, if_true]
      exact ih h.tail
    · simpa [hx] using h

theorem chain'_rdropWhile {α : Type} {R : α → α → Prop} (p : α → Bool) (l : List α)
    (h : List.Chain' R l) : List.Chain' R (l.rdropWhile p) := by
  unfold List.rdropWhile
  rw [List.chain'_reverse]
  apply chain'_dropWhile
  exact List.chain'_reverse.mpr (h.imp fun a b hab => hab)

theorem mem_collapseWsAux :
    ∀ (l : List Char) (flag : Bool), ∀ c ∈ collapseWsAux flag l, c ∈ l ∨ c = ' ' := by
  intro l
  induction l with
  | nil => intro flag c hc; simp [collapseWsAux] at hc
  | cons x xs ih =>
    intro flag c hc
    by_cases hx : isWsChar x = true
    · cases flag with
      | true =>
        simp only [collapseWsAux, hx, if_true] at hc
        rcases ih true c hc with h | h
        · exact Or.inl (List.mem_cons_of_mem _ h)
        · exact Or.inr h
      | false =>
        simp only [collapseWsAux, hx, if_true] at hc
        rcases List.mem_cons.mp hc with rfl | hc'
        · exact Or.inr rfl
        · rcases ih true c hc' with h | h
          · exact Or.inl (List.mem_cons_of_mem _ h)
          · exact Or.inr h
    · simp only [collapseWsAux, hx, if_false] at hc
      rcases List.mem_cons.mp hc with rfl | hc'
      · exact Or.inl (List.mem_cons_self _ _)
      · rcases ih false c hc' with h | h
        · exact Or.inl (List.mem_cons_of_mem _ h)
        · exact Or.inr h

theorem collapseWsAux_ws_space :
    ∀ (l : List Char) (flag : Bool), ∀ c ∈ collapseWsAux flag l,
      isWsChar c = true → c = ' ' := by
  intro l
  induction l with
  | nil => intro flag c hc; simp [collapseWsAux] at hc
  | cons x xs ih =>
    intro flag c hc hwc
    by_cases hx : isWsChar x = true
    · cases flag with
      | true =>
        simp only [collapseWsAux, hx, if_true] at hc
        exact ih true c hc hwc
      | false =>
        simp only [collapseWsAux, hx, if_true] at hc
        rcases List.mem_cons.mp hc with rfl | hc'
        · rfl
        · exact ih true c hc' hwc
    · simp only [collapseWsAux, hx, if_false] at hc
      rcases List.mem_cons.mp hc with rfl | hc'
      · exact absurd hwc (by simpa using hx)
      · exact ih false c hc' hwc

theorem collapseWsAux_chain :
    ∀ (l : List Char) (flag : Bool),
      List.Chain' (fun a b => ¬(isWsChar a = true ∧ isWsChar b = true))
        (collapseWsAux flag l) ∧
      (flag = true → ∀ c, (collapseWsAux flag l).head? = some c → isWsChar c = false) := by
  intro l
  induction l with
  | nil =>
    intro flag
    refine ⟨by simp [collapseWsAux], ?_⟩
    intro _ c hc
    simp [collapseWsAux] at hc
  | cons x xs ih =>
    intro flag
    by_cases hx : isWsChar x = true
    · cases flag with
      | true =>
        have he : collapseWsAux true (x :: xs) = collapseWsAux true xs := by
          simp [collapseWsAux, hx]
        rw [he]
        exact ⟨(ih true).1, fun _ => (ih true).2 rfl⟩
      | false =>
        have he : collapseWsAux false (x :: xs) = ' ' :: collapseWsAux true xs := by
          simp [collapseWsAux, hx]
        rw [he]
        refine ⟨?_, ?_⟩
        · rw [List.chain'_cons']
          refine ⟨?_, (ih true).1⟩
          intro y hy hcontra
          have := (ih true).2 rfl y hy
          exact absurd hcontra.2 (by simp [this])
        · intro hfalse
          cases hfalse
    · have he : collapseWsAux flag (x :: xs) = x :: collapseWsAux false xs := by
        cases flag <;> simp [collapseWsAux, hx]
      rw [he]
      refine ⟨?_, ?_⟩
      · rw [List.chain'_cons']
        refine ⟨?_, (ih false).1⟩
        intro y _ hcontra
        exact absurd hcontra.1 (by simpa using hx)
      · intro _ c hc
        simp only [List.head?_cons, Option.some.injEq] at hc
        subst hc
        simpa using hx

theorem replaceIllegalAux_safe :
    ∀ (l : List Char) (flag : Bool), ∀ c ∈ replaceIllegalAux flag l,
      illegalFileChars.contains c = false := by
  intro l
  induction l with
  | nil => intro flag c hc; simp [replaceIllegalAux] at hc
  | cons x xs ih =>
    intro flag c hc
    by_cases hx : illegalFileChars.contains x = true
    · cases flag with
      | true =>
        simp only [replaceIllegalAux, hx, if_true] at hc
        exact ih true c hc
      | false =>
        simp only [replaceIllegalAux, hx, if_true] at hc
        rcases List.mem_cons.mp hc with rfl | hc'
        · decide
        · exact ih true c hc'
    · simp only [replaceIllegalAux, hx, if_false] at hc
      rcases List.mem_cons.mp hc with rfl | hc'
      · simpa using hx
      · exact ih false c hc'

theorem mem_normWs (l : List Char) : ∀ c ∈ normWs l, c ∈ l ∨ c = ' ' := by
  intro c hc
  unfold normWs stripWs dropWsLeft at hc
  exact mem_collapseWsAux l false c
    (mem_dropWhile_mem _ _ c (mem_rdropWhile_mem _ _ c hc))

theorem normWs_ws_space (l : List Char) :
    ∀ c ∈ normWs l, isWsChar c = true → c = ' ' := by
  intro c hc
  unfold normWs stripWs dropWsLeft at hc
  exact collapseWsAux_ws_space l false c
    (mem_dropWhile_mem _ _ c (mem_rdropWhile_mem _ _ c hc))

theorem normWs_chain (l : List Char) :
    List.Chain' (fun a b => ¬(isWsChar a = true ∧ isWsChar b = true)) (normWs l) := by
  unfold normWs stripWs dropWsLeft
  apply chain'_rdropWhile
  apply chain'_dropWhile
  exact (collapseWsAux_chain l false).1

theorem normWs_head (l : List Char) :
    ∀ c, (normWs l).head? = some c → isWsChar c = false := by
  intro c hc
  unfold normWs stripWs dropWsLeft at hc
  exact head?_dropWhile_not_sat _ _ c (head?_rdropWhile_eq _ _ c hc)

theorem normWs_getLast (l : List Char) :
    ∀ c, (normWs l).getLast? = some c → isWsChar c = false := by
  intro c hc
  unfold normWs stripWs dropWsLeft at hc
  exact getLast?_rdropWhile_not_sat _ _ c hc

theorem chain'_no_ws : ∀ l : List Char, (∀ c ∈ l, isWsChar c = false) →
    List.Chain' (fun a b => ¬(isWsChar a = true ∧ isWsChar b = true)) l := by
  intro l
  induction l with
  | nil => intro _; simp
  | cons x xs ih =>
    intro h
    rw [List.chain'_cons']
    refine ⟨?_, ih fun c hc => h c (List.mem_cons_of_mem _ hc)⟩
    intro y _ hcontra
    have hx := h x (List.mem_cons_self _ _)
    rw [hcontra.1] at hx
    cases hx

theorem sanitizeCore_facts (name : String) :
    (∀ c ∈ sanitizeCore name, illegalFileChars.contains c = false) ∧
    (∀ c ∈ sanitizeCore name, isWsChar c = true → c = ' ') ∧
    List.Chain' (fun a b => ¬(isWsChar a = true ∧ isWsChar b = true))
      (sanitizeCore name) := by
  have hrw : sanitizeCore name = stripDots (normWs (replaceIllegalAux false name.data)) := rfl
  rw [hrw]
  refine ⟨?_, ?_, ?_⟩
  · intro c hc
    unfold stripDots at hc
    have h1 : c ∈ normWs (replaceIllegalAux false name.data) :=
      mem_dropWhile_mem _ _ c (mem_rdropWhile_mem _ _ c hc)
    rcases mem_normWs _ c h1 with h | rfl
    · exact replaceIllegalAux_safe _ false c h
    · decide
  · intro c hc
    unfold stripDots at hc
    exact normWs_ws_space _ c (mem_dropWhile_mem _ _ c (mem_rdropWhile_mem _ _ c hc))
  · unfold stripDots
    exact chain'_rdropWhile _ _ (chain'_dropWhile _ _ (normWs_chain _))

/-- C9.  The sanitizer's output never contains a reserved character,
its whitespace is single interior spaces (every whitespace character is
a space, and no two are adjacent), its length never exceeds 180, and
whenever the pipeline's pre-truncation result exceeds 180 characters
the output is exactly 180 characters long. -/
theorem spec_C9 (name : String) :
    (∀ c ∈ (_sanitize_filename name).data, illegalFileChars.contains c = false) ∧
    (∀ c ∈ (_sanitize_filename name).data, isWsChar c = true → c = ' ') ∧
    List.Chain' (fun a b => ¬(isWsChar a = true ∧ isWsChar b = true))
      (_sanitize_filename name).data ∧
    (_sanitize_filename name).data.length ≤ 180 ∧
    (180 < (sanitizeCore name).length → (_sanitize_filename name).data.length = 180) := by
  by_cases hemp : name.data.isEmpty = true
  · have hout : _sanitize_filename name = "untitled" := by
      unfold _sanitize_filename
      rw [if_pos hemp]
    have hnil : name.data = [] := by simpa using hemp
    have hcore : sanitizeCore name = [] := by
      unfold sanitizeCore collapseWs
      rw [hnil]
      rfl
    rw [hout, hcore]
    exact ⟨by decide, by decide, chain'_no_ws _ (by decide), by decide,
      by intro h; simp at h⟩
  · have h1 : _sanitize_filename name =
        if 180 < (sanitizeCore name).length then String.mk ((sanitizeCore name).take 180)
        else String.mk (sanitizeCore name) := by
      unfold _sanitize_filename
      rw [if_neg hemp]
    obtain ⟨hil, hws, hch⟩ := sanitizeCore_facts name
    by_cases h180 : 180 < (sanitizeCore name).length
    · rw [h1, if_pos h180]
      refine ⟨?_, ?_, ?_, ?_, ?_⟩
      · intro c hc
        exact hil c (List.take_subset _ _ hc)
      · intro c hc
        exact hws c (List.take_subset _ _ hc)
      · exact hch.take 180
      · show ((sanitizeCore name).take 180).length ≤ 180
        simp [List.length_take]
      · intro _
        show ((sanitizeCore name).take 180).length = 180
        rw [List.length_take]
        omega
    · rw [h1, if_neg h180]
      refine ⟨hil, hws, hch, ?_, ?_⟩
      · show (sanitizeCore name).length ≤ 180
        omega
      · intro h
        exact absurd h h180

set_option maxRecDepth 4000 in
/-- Witness for C9 at a 181-character input, whose pre-truncation
result exceeds 180 characters and is truncated to exactly 180. -/
theorem spec_C9_witness :
    180 < (sanitizeCore (String.mk (List.replicate 181 'a'))).length ∧
    (_sanitize_filename (String.mk (List.replicate 181 'a'))).data.length = 180 :=
  ⟨by decide, (spec_C9 (String.mk (List.replicate 181 'a'))).2.2.2.2 (by decide)⟩

/-! ## The loader round-trip, the faculty filter's lookup and its
missing-subfield behaviour -/

/-- C3.  The loader yields `{"a":1}` for `let X = {"a":1};`, and
appending `export {X};` leaves the result unchanged. -/
theorem spec_C3 :
    load_js_object "let X = \x7b\"a\":1\x7d;".data "X".data =
      some (Json.obj [("a", Json.num 1 0)]) ∧
    load_js_object ("let X = \x7b\"a\":1\x7d;" ++ "export \x7bX\x7d;").data "X".data =
      some (Json.obj [("a", Json.num 1 0)]) :=
  ⟨rfl, rfl⟩

/-- C10.  On a block containing an entry with no subfield the filter's
tag check raises (the `none` outcome models the uncaught
`AttributeError` from `prof_data.get("subfield").lower()`), rather than
dropping the entry and returning a list. -/
theorem spec_C10 :
    extract_professors_from_profBySchool
      (Json.obj [("U", Json.obj [("p1", Json.obj [("name", Json.str "Alice")])])])
      "U" = none :=
  rfl

theorem lookupJ_eq_none_of_not_mem (key : String) :
    ∀ kvs : List (String × Json), (∀ kv ∈ kvs, kv.1 ≠ key) → lookupJ key kvs = none := by
  intro kvs
  induction kvs with
  | nil => intro _; rfl
  | cons kv rest ih =>
    intro h
    have hne : kv.1 ≠ key := h kv (List.mem_cons_self _ _)
    obtain ⟨k, v⟩ := kv
    simp only [lookupJ]
    rw [if_neg (by simpa using hne)]
    exact ih fun kv hkv => h kv (List.mem_cons_of_mem _ hkv)

/-- C7.  When the matched name is none of the dataset's keys, the
faculty filter returns the empty list rather than raising. -/
theorem spec_C7 (schools : List (String × Json)) (matchedName : String)
    (h : ∀ kv ∈ schools, kv.1 ≠ matchedName) :
    extract_professors_from_profBySchool (Json.obj schools) matchedName = some [] := by
  have hl := lookupJ_eq_none_of_not_mem matchedName schools h
  simp only [extract_professors_from_profBySchool, hl]

/-- Witness for C7: a dataset whose only key differs from the matched
name. -/
theorem spec_C7_witness :
    (∀ kv ∈ ([("V", Json.null)] : List (String × Json)), kv.1 ≠ "U") ∧
    extract_professors_from_profBySchool (Json.obj [("V", Json.null)]) "U" = some [] :=
  ⟨by decide, spec_C7 _ _ (by decide)⟩

/-! ## The search-result verification -/

/-- C6.  On a page whose header reports a total of `n`, the extractor
reports success exactly when the number of extracted links equals
`min 10 n`, and in every case (success or mismatch) it returns the
extracted link sequence; the signal is data, never an exception. -/
theorem spec_C6 (doc : Dom) (n : Nat) (h : totalOf doc = some n) :
    ((extract_gs_result_links doc).2 = VerifySignal.verified ↔
      ((extract_gs_result_links doc).1).length = min 10 n) ∧
    (extract_gs_result_links doc).1 = collectCardLinks false doc := by
  have hrw : extract_gs_result_links doc =
      if min 10 n = (collectCardLinks false doc).length
      then (collectCardLinks false doc, VerifySignal.verified)
      else (collectCardLinks false doc, VerifySignal.countMismatch) := by
    unfold extract_gs_result_links
    rw [h]
  rw [hrw]
  by_cases he : min 10 n = (collectCardLinks false doc).length
  · rw [if_pos he]
    exact ⟨⟨fun _ => he.symm, fun _ => rfl⟩, rfl⟩
  · rw [if_neg he]
    refine ⟨⟨fun hc => absurd hc (by simp), fun hlen => absurd hlen.symm he⟩, rfl⟩

/-- Witness for C6 on a concrete page with one result card and a header
reporting one result: verification succeeds with one extracted link. -/
theorem spec_C6_witness :
    totalOf onePageDoc = some 1 ∧
    (((extract_gs_result_links onePageDoc).2 = VerifySignal.verified ↔
        ((extract_gs_result_links onePageDoc).1).length = min 10 1) ∧
      (extract_gs_result_links onePageDoc).1 = collectCardLinks false onePageDoc) :=
  ⟨rfl, spec_C6 onePageDoc 1 rfl⟩

/-! ## Lemmas about the faculty filter -/

theorem profFilterLoop_subfield :
    ∀ (block : List (String × Json)) (out : List Prof),
      profFilterLoop block = some out →
      ∀ p ∈ out, ∃ s, p.subfield = some (Json.str s) ∧
        ALLOWED_SUBFIELDS.contains (String.mk (pyLower s.data)) = true := by
  intro block
  induction block with
  | nil =>
    intro out h p hp
    simp only [profFilterLoop, Option.some.injEq] at h
    subst h
    simp at hp
  | cons entry rest ih =>
    intro out h p hp
    obtain ⟨k, pd⟩ := entry
    cases pd with
    | obj fields =>
      cases hsub : lookupJ "subfield" fields with
      | none => simp [profFilterLoop, hsub] at h
      | some sv =>
        cases sv with
        | str s =>
          cases hrec : profFilterLoop rest with
          | none => simp [profFilterLoop, hsub, hrec] at h
          | some tail =>
            have hstep : (if ALLOWED_SUBFIELDS.contains (String.mk (pyLower s.data)) = true
                then some (Prof.mk (lookupJ "name" fields) (some (Json.str s))
                  (lookupJ "google scholar" fields) :: tail)
                else some tail) = some out := by
              simpa [profFilterLoop, hsub, hrec] using h
            by_cases hkeep : ALLOWED_SUBFIELDS.contains (String.mk (pyLower s.data)) = true
            · rw [if_pos hkeep] at hstep
              have h2 := (Option.some.inj hstep).symm
              subst h2
              rcases List.mem_cons.mp hp with rfl | hp'
              · exact ⟨s, rfl, hkeep⟩
              · exact ih tail hrec p hp'
            · rw [if_neg hkeep] at hstep
              have h2 := (Option.some.inj hstep).symm
              subst h2
              exact ih _ hrec p hp
        | null => simp [profFilterLoop, hsub] at h
        | bool b => simp [profFilterLoop, hsub] at h
        | num m e => simp [profFilterLoop, hsub] at h
        | arr xs => simp [profFilterLoop, hsub] at h
        | obj kvs => simp [profFilterLoop, hsub] at h
    | null => simp [profFilterLoop] at h
    | bool b => simp [profFilterLoop] at h
    | num m e => simp [profFilterLoop] at h
    | str t => simp [profFilterLoop] at h
    | arr xs => simp [profFilterLoop] at h

theorem charListLe_total : ∀ a b : List Char,
    charListLe a b = true ∨ charListLe b a = true := by
  intro a
  induction a with
  | nil => intro b; left; rfl
  | cons x xs ih =>
    intro b
    cases b with
    | nil => right; rfl
    | cons y ys =>
      by_cases hlt : x.toNat < y.toNat
      · left; simp [charListLe, hlt]
      · by_cases hgt : y.toNat < x.toNat
        · right; simp [charListLe, hgt]
        · have hxy : x = y := by
            have hv : x.toNat = y.toNat := le_antisymm (not_lt.mp hgt) (not_lt.mp hlt)
            exact Char.ext (congrArg UInt32.mk (BitVec.toNat_injective hv))
          subst hxy
          rcases ih ys with h | h
          · left; simp [charListLe, h]
          · right; simp [charListLe, h]

theorem mem_insAsc {α : Type} (key : α → List Char) (x : α) :
    ∀ (l : List α) (z : α), z ∈ insAsc key x l ↔ z = x ∨ z ∈ l := by
  intro l
  induction l with
  | nil => intro z; simp [insAsc]
  | cons y ys ih =>
    intro z
    rw [insAsc]
    by_cases hc : charListLe (key x) (key y) = true
    · rw [if_pos hc]
      simp [List.mem_cons]
    · rw [if_neg hc]
      simp only [List.mem_cons, ih]
      tauto

theorem mem_sortAsc {α : Type} (key : α → List Char) :
    ∀ (l : List α) (z : α), z ∈ sortAsc key l ↔ z ∈ l := by
  intro l
  induction l with
  | nil => intro z; simp [sortAsc]
  | cons x xs ih =>
    intro z
    rw [sortAsc, mem_insAsc]
    simp only [List.mem_cons, ih]

theorem chain'_insAsc {α : Type} (key : α → List Char) (x : α) :
    ∀ l : List α,
      List.Chain' (fun p q => charListLe (key p) (key q) = true) l →
      List.Chain' (fun p q => charListLe (key p) (key q) = true) (insAsc key x l) := by
  intro l
  induction l with
  | nil => intro _; simp [insAsc]
  | cons y ys ih =>
    intro h
    rw [insAsc]
    by_cases hc : charListLe (key x) (key y) = true
    · rw [if_pos hc]
      rw [List.chain'_cons']
      refine ⟨?_, h⟩
      intro z hz
      simp only [List.head?_cons, Option.mem_def, Option.some.injEq] at hz
      subst hz
      exact hc
    · rw [if_neg hc]
      rw [List.chain'_cons']
      refine ⟨?_, ih h.tail⟩
      intro z hz
      cases ys with
      | nil =>
        simp [insAsc] at hz
        subst hz
        rcases charListLe_total (key y) (key x) with hyx | hxy
        · exact hyx
        · exact absurd hxy hc
      | cons w ws =>
        rw [insAsc] at hz
        by_cases hcw : charListLe (key x) (key w) = true
        · rw [if_pos hcw] at hz
          simp only [List.head?_cons, Option.mem_def, Option.some.injEq] at hz
          subst hz
          rcases charListLe_total (key y) (key x) with hyx | hxy
          · exact hyx
          · exact absurd hxy hc
        · rw [if_neg hcw] at hz
          simp only [List.head?_cons, Option.mem_def, Option.some.injEq] at hz
          subst hz
          exact (List.chain'_cons.mp h).1

theorem chain'_sortAsc {α : Type} (key : α → List Char) :
    ∀ l : List α,
      List.Chain' (fun p q => charListLe (key p) (key q) = true) (sortAsc key l) := by
  intro l
  induction l with
  | nil => simp [sortAsc]
  | cons x xs ih =>
    rw [sortAsc]
    exact chain'_insAsc key x _ ih

/-- C5.  Whenever the faculty filter returns a list, every returned
record carries a string subfield whose lower-casing is in the five-tag
allow-list, and the list is sorted ascending by faculty name under the
code-point (case-sensitive ordinal) order. -/
theorem spec_C5 (dataset : Json) (matchedName : String) (out : List Prof)
    (h : extract_professors_from_profBySchool dataset matchedName = some out) :
    (∀ p ∈ out, ∃ s, p.subfield = some (Json.str s) ∧
      ALLOWED_SUBFIELDS.contains (String.mk (pyLower s.data)) = true) ∧
    List.Chain' (fun p q => ∀ s t, profNameKey p = some s → profNameKey q = some t →
      charListLe s.data t.data = true) out := by
  cases dataset with
  | obj schools =>
    cases hins : lookupJ matchedName schools with
    | none =>
      have hout : out = [] := by
        have := h
        simp only [extract_professors_from_profBySchool, hins] at this
        exact (Option.some.inj this).symm
      subst hout
      exact ⟨by simp, by simp⟩
    | some blockJ =>
      cases blockJ with
      | obj block =>
        cases hloop : profFilterLoop block with
        | none => simp [extract_professors_from_profBySchool, hins, hloop] at h
        | some res =>
          have hsort : sortProfs res = some out := by
            simpa [extract_professors_from_profBySchool, hins, hloop] using h
          have hsubf := profFilterLoop_subfield block res hloop
          unfold sortProfs at hsort
          by_cases hlen : res.length ≤ 1
          · rw [if_pos hlen] at hsort
            have hre := Option.some.inj hsort
            subst hre
            refine ⟨hsubf, ?_⟩
            cases res with
            | nil => simp
            | cons p ps =>
              cases ps with
              | nil => simp
              | cons q qs => simp at hlen
          · rw [if_neg hlen] at hsort
            by_cases hall : res.all (fun p => (profNameKey p).isSome) = true
            · rw [if_pos hall] at hsort
              have hout := Option.some.inj hsort
              subst hout
              constructor
              · intro p hp
                exact hsubf p ((mem_sortAsc _ res p).mp hp)
              · have hchain := chain'_sortAsc (fun p => ((profNameKey p).getD "").data) res
                refine hchain.imp ?_
                intro p q hpq s t hs ht
                rw [hs, ht] at hpq
                simpa using hpq
            · rw [if_neg hall] at hsort
              simp at hsort
      | null => simp [extract_professors_from_profBySchool, hins] at h
      | bool b => simp [extract_professors_from_profBySchool, hins] at h
      | num m e => simp [extract_professors_from_profBySchool, hins] at h
      | str s => simp [extract_professors_from_profBySchool, hins] at h
      | arr xs => simp [extract_professors_from_profBySchool, hins] at h
  | null => simp [extract_professors_from_profBySchool] at h
  | bool b => simp [extract_professors_from_profBySchool] at h
  | num m e => simp [extract_professors_from_profBySchool] at h
  | str s => simp [extract_professors_from_profBySchool] at h
  | arr xs => simp [extract_professors_from_profBySchool] at h

/-- Witness for C5 on the sample dataset: the tag outside the
allow-list is dropped, the upper-case tag is kept, and the output is
sorted by name. -/
theorem spec_C5_witness :
    extract_professors_from_profBySchool sampleDataset "U" =
      some [⟨some (Json.str "Bob"), some (Json.str "nlp"), none⟩,
            ⟨some (Json.str "Zed"), some (Json.str "AI"), some (Json.str "u1")⟩] ∧
    ((∀ p ∈ [Prof.mk (some (Json.str "Bob")) (some (Json.str "nlp")) none,
             Prof.mk (some (Json.str "Zed")) (some (Json.str "AI")) (some (Json.str "u1"))],
        ∃ s, p.subfield = some (Json.str s) ∧
          ALLOWED_SUBFIELDS.contains (String.mk (pyLower s.data)) = true) ∧
      List.Chain' (fun p q => ∀ s t, profNameKey p = some s → profNameKey q = some t →
          charListLe s.data t.data = true)
        [Prof.mk (some (Json.str "Bob")) (some (Json.str "nlp")) none,
         Prof.mk (some (Json.str "Zed")) (some (Json.str "AI")) (some (Json.str "u1"))]) :=
  ⟨rfl, spec_C5 sampleDataset "U" _ rfl⟩

/-! ## Lemmas about the roster table parser -/

theorem rowInst_eq_claimRowEmit (attrs : List (String × String)) (kids : Dom) :
    rowInst attrs kids = claimRowEmit (attrs, kids) := by
  unfold rowInst claimRowEmit
  by_cases h1 : ((getAttr attrs "id").getD "").data.isEmpty = true
  · simp [h1]
  · by_cases h2 : containsSeq " dropdown".data ((getAttr attrs "id").getD "").data = true
    · simp [h1, h2]
    · cases htds : directTds kids with
      | nil => simp [h1, h2, htds]
      | cons td0 rest =>
        cases rest with
        | nil => simp [h1, h2, htds]
        | cons td1 rest2 =>
          simp [h1, h2, htds]
          rw [if_neg (show ¬ rest2.length + 1 + 1 < 2 by omega)]

theorem rowInst_name (attrs : List (String × String)) (kids : Dom) (inst : Institution)
    (h : rowInst attrs kids = some inst) :
    ∃ td, inst.name = _clean_university_cell_text td ∧ inst.name.data ≠ [] := by
  unfold rowInst at h
  by_cases h1 : ((getAttr attrs "id").getD "").data.isEmpty = true
  · rw [if_pos h1] at h
    exact absurd h (by simp)
  · rw [if_neg h1] at h
    by_cases h2 : containsSeq " dropdown".data ((getAttr attrs "id").getD "").data = true
    · rw [if_pos h2] at h
      exact absurd h (by simp)
    · rw [if_neg h2] at h
      cases htds : directTds kids with
      | nil =>
        rw [htds] at h
        exact absurd h (by simp)
      | cons td0 rest =>
        cases rest with
        | nil =>
          rw [htds] at h
          exact absurd h (by simp)
        | cons td1 rest2 =>
          rw [htds] at h
          dsimp only at h
          by_cases h3 : (_clean_university_cell_text td1.2).data.isEmpty = true
          · rw [if_pos h3] at h
            exact absurd h (by simp)
          · rw [if_neg h3] at h
            have hinst := Option.some.inj h
            refine ⟨td1.2, ?_, ?_⟩
            · rw [← hinst]
            · rw [← hinst]
              simpa using h3

/-- Counterexample for C8.  The single direct row of
`emptyNameRowDoc`'s table body passes all three skip conditions the
claim lists (non-empty identifier, no expandable marker, two cells), so
the claim, as stated, demands one emitted institution; but its cleaned
name is empty and the code emits nothing. -/
theorem spec_C8_counterexample :
    list_universities_from_main_table emptyNameRowDoc = [] ∧
    ((directTrs ((findTbody emptyNameRowDoc).getD Dom.nilD)).filter
        rowQualifiesC8).length = 1 :=
  ⟨rfl, rfl⟩

/-- C8 (amended).  The parser returns the empty sequence when the table
body is absent; otherwise it emits, in document order, one institution
per direct child row except rows with an empty identifier, rows whose
identifier contains the expandable-sub-row marker, rows with fewer than
two cells, and rows whose cleaned name is empty; every emitted name is
non-empty and whitespace-normalised (spaces only, no runs, none at the
ends). -/
theorem spec_C8_amended (doc : Dom) :
    (findTbody doc = none → list_universities_from_main_table doc = []) ∧
    (∀ tb, findTbody doc = some tb →
      list_universities_from_main_table doc = (directTrs tb).filterMap claimRowEmit) ∧
    (∀ inst ∈ list_universities_from_main_table doc,
      inst.name.data ≠ [] ∧
      (∀ c ∈ inst.name.data, isWsChar c = true → c = ' ') ∧
      List.Chain' (fun a b => ¬(isWsChar a = true ∧ isWsChar b = true)) inst.name.data ∧
      (∀ c, inst.name.data.head? = some c → isWsChar c = false) ∧
      (∀ c, inst.name.data.getLast? = some c → isWsChar c = false)) := by
  refine ⟨?_, ?_, ?_⟩
  · intro h
    unfold list_universities_from_main_table
    rw [h]
  · intro tb h
    unfold list_universities_from_main_table
    rw [h]
    apply List.filterMap_congr
    intro r _
    exact rowInst_eq_claimRowEmit r.1 r.2
  · intro inst hinst
    unfold list_universities_from_main_table at hinst
    cases hft : findTbody doc with
    | none =>
      rw [hft] at hinst
      simp at hinst
    | some tb =>
      rw [hft] at hinst
      rw [List.mem_filterMap] at hinst
      obtain ⟨r, _, hr⟩ := hinst
      obtain ⟨td, hname, hne⟩ := rowInst_name r.1 r.2 inst hr
      have hdata : inst.name.data = normWs (getTextSep (rmSpan td).1).data := by
        rw [hname]
        rfl
      refine ⟨hne, ?_, ?_, ?_, ?_⟩
      · intro c hc
        rw [hdata] at hc
        exact normWs_ws_space _ c hc
      · rw [hdata]
        exact normWs_chain _
      · intro c hc
        rw [hdata] at hc
        exact normWs_head _ c hc
      · intro c hc
        rw [hdata] at hc
        exact normWs_getLast _ c hc

/-- Witness for the amended C8 on a concrete rankings page: the
dropdown row is skipped, the `+` span is stripped, the name is
whitespace-normalised, and the output agrees with the claim-side
emission rule. -/
theorem spec_C8_amended_witness :
    findTbody rosterDoc = some rosterRows ∧
    list_universities_from_main_table rosterDoc =
      (directTrs rosterRows).filterMap claimRowEmit ∧
    (⟨"r1", "Brown University"⟩ : Institution) ∈
      list_universities_from_main_table rosterDoc ∧
    (("Brown University" : String).data ≠ [] ∧
      (∀ c ∈ ("Brown University" : String).data, isWsChar c = true → c = ' ') ∧
      List.Chain' (fun a b => ¬(isWsChar a = true ∧ isWsChar b = true))
        ("Brown University" : String).data ∧
      (∀ c, ("Brown University" : String).data.head? = some c → isWsChar c = false) ∧
      (∀ c, ("Brown University" : String).data.getLast? = some c → isWsChar c = false)) :=
  ⟨rfl, (spec_C8_amended rosterDoc).2.1 rosterRows rfl, by decide,
    (spec_C8_amended rosterDoc).2.2 ⟨"r1", "Brown University"⟩ (by decide)⟩

/-! ## Lemmas about the embedded object loader -/

theorem isWordChar_not_ws (c : Char) (h : isWordChar c = true) : isWsChar c = false := by
  cases hws : isWsChar c
  · rfl
  · exfalso
    have h6 : c = ' ' ∨ c = '\t' ∨ c = '\n' ∨ c = '\r' ∨ c = '\x0b' ∨ c = '\x0c' := by
      simpa [isWsChar, or_assoc] using hws
    rcases h6 with rfl | rfl | rfl | rfl | rfl | rfl <;> exact absurd h (by decide)

theorem startsWithSeq_append_self :
    ∀ (name t : List Char), startsWithSeq name (name ++ t) = true := by
  intro name t
  induction name with
  | nil => rfl
  | cons c cs ih => simp [startsWithSeq, ih]

theorem dropWhile_eq_self_of_wsRun_zero (l : List Char) (h : wsRun l = 0) :
    l.dropWhile isWsChar = l := by
  cases l with
  | nil => rfl
  | cons c cs =>
    rw [List.dropWhile_cons]
    by_cases hc : isWsChar c = true
    · rw [wsRun, if_pos hc] at h
      omega
    · rw [if_neg hc]

theorem subLetAux_no_match (name : List Char) :
    ∀ (s : List Char) (fuel : Nat) (prev : Option Char),
      hasLetMatch name prev s = false → subLetAux name fuel prev s = s := by
  intro s
  induction s with
  | nil => intro fuel prev _; cases fuel <;> rfl
  | cons c rest ih =>
    intro fuel prev h
    rw [hasLetMatch, Bool.or_eq_false_iff] at h
    obtain ⟨h1, h2⟩ := h
    cases fuel with
    | zero => rfl
    | succ f =>
      rw [subLetAux]
      by_cases hbd : boundaryOk prev = true
      · rw [if_pos hbd]
        cases hm : matchLetAt name (c :: rest) with
        | some n =>
          rw [hbd] at h1
          simp [hm] at h1
        | none =>
          simp only [hm]
          exact congrArg (c :: ·) (ih f (some c) h2)
      · rw [if_neg hbd]
        exact congrArg (c :: ·) (ih f (some c) h2)

theorem subExportAux_no_match (name : List Char) :
    ∀ (s : List Char) (fuel : Nat),
      hasExportMatch name s = false → subExportAux name fuel s = s := by
  intro s
  induction s with
  | nil => intro fuel _; cases fuel <;> rfl
  | cons c rest ih =>
    intro fuel h
    rw [hasExportMatch, Bool.or_eq_false_iff] at h
    obtain ⟨h1, h2⟩ := h
    cases fuel with
    | zero => rfl
    | succ f =>
      rw [subExportAux]
      cases hm : matchExportAt name (c :: rest) with
      | some n => simp [hm] at h1
      | none =>
        simp only [hm]
        exact congrArg (c :: ·) (ih f h2)

theorem matchLetAt_decl (name body : List Char) (hn : name ≠ [])
    (hw : ∀ c ∈ name, isWordChar c = true) (hb : wsRun (body ++ [';']) = 0) :
    matchLetAt name
      ('l' :: 'e' :: 't' :: ' ' :: (name ++ (' ' :: '=' :: ' ' :: (body ++ [';'])))) =
      some (name.length + 7) := by
  obtain ⟨n0, nrest, rfl⟩ := List.exists_cons_of_ne_nil hn
  have h0 : isWsChar n0 = false := isWordChar_not_ws n0 (hw n0 (List.mem_cons_self _ _))
  set t' : List Char := ' ' :: '=' :: ' ' :: (body ++ [';']) with ht'
  set R : List Char := ' ' :: ((n0 :: nrest) ++ t') with hRdef
  have hR : wsRun R = 1 := by
    rw [hRdef, wsRun, if_pos (by decide), List.cons_append, wsRun, if_neg (by simp [h0])]
  have hm : matchLetAt (n0 :: nrest) ('l' :: 'e' :: 't' :: R) =
      (tryLetTail (n0 :: nrest) R (wsRun R)).map (3 + ·) := rfl
  rw [hm, hR]
  have hd1 : R.drop (0 + 1) = (n0 :: nrest) ++ t' := rfl
  have hd2 : R.drop (0 + 1 + (n0 :: nrest).length) = t' := by
    have harith : 0 + 1 + (n0 :: nrest).length = (n0 :: nrest).length + 1 := by omega
    rw [hRdef, harith, List.drop_succ_cons]
    exact List.drop_left' rfl
  rw [tryLetTail, hd1, if_pos (startsWithSeq_append_self _ _), hd2]
  dsimp only
  have hw2 : wsRun t' = 1 := by
    rw [ht', wsRun, if_pos (by decide), wsRun, if_neg (by decide)]
  rw [hw2]
  have hd3 : t'.drop 1 = '=' :: (' ' :: (body ++ [';'])) := rfl
  rw [hd3]
  have hw3 : wsRun (' ' :: (body ++ [';'])) = 1 := by
    rw [wsRun, if_pos (by decide), hb]
  simp only [hw3, Option.map_some', List.length_cons]
  all_goals exact congrArg some (by omega)

theorem subLet_decl (name body : List Char) (hn : name ≠ [])
    (hw : ∀ c ∈ name, isWordChar c = true)
    (hb : wsRun (body ++ [';']) = 0)
    (hnolet : hasLetMatch name (some ' ') (body ++ [';']) = false) :
    subLet name (['l', 'e', 't', ' '] ++ name ++ [' ', '=', ' '] ++ body ++ [';']) =
      body ++ [';'] := by
  unfold subLet
  have hin : ['l', 'e', 't', ' '] ++ name ++ [' ', '=', ' '] ++ body ++ [';'] =
      'l' :: 'e' :: 't' :: ' ' :: (name ++ (' ' :: '=' :: ' ' :: (body ++ [';']))) := by
    simp
  rw [hin]
  rw [subLetAux, if_pos (show boundaryOk none = true from rfl)]
  rw [matchLetAt_decl name body hn hw hb]
  have hpre : ('l' :: 'e' :: 't' :: ' ' :: (name ++ (' ' :: '=' :: ' ' :: (body ++ [';'])))) =
      (['l', 'e', 't', ' '] ++ name ++ [' ', '=', ' ']) ++ (body ++ [';']) := by
    simp
  have hlen : (['l', 'e', 't', ' '] ++ name ++ [' ', '=', ' ']).length = name.length + 7 := by
    simp
    
  have htake : (('l' :: 'e' :: 't' :: ' ' ::
      (name ++ (' ' :: '=' :: ' ' :: (body ++ [';'])))).take (name.length + 7)) =
      ['l', 'e', 't', ' '] ++ name ++ [' ', '=', ' '] := by
    rw [hpre]
    exact List.take_left' hlen
  have hdrop : (('l' :: 'e' :: 't' :: ' ' ::
      (name ++ (' ' :: '=' :: ' ' :: (body ++ [';'])))).drop (name.length + 7)) =
      body ++ [';'] := by
    rw [hpre]
    exact List.drop_left' hlen
  have hlast : (['l', 'e', 't', ' '] ++ name ++ [' ', '=', ' ']).getLast? = some ' ' := by
    have : ['l', 'e', 't', ' '] ++ name ++ [' ', '=', ' '] =
        (['l', 'e', 't', ' '] ++ name ++ [' ', '=']) ++ [' '] := by simp
    rw [this]
    exact List.getLast?_concat _
  simp only [htake, hdrop, hlast]
  exact subLetAux_no_match name _ _ _ hnolet

theorem stripWs_body_semi (body : List Char) (hb : wsRun (body ++ [';']) = 0) :
    stripWs (body ++ [';']) = body ++ [';'] := by
  unfold stripWs dropWsLeft
  rw [dropWhile_eq_self_of_wsRun_zero _ hb]
  exact List.rdropWhile_concat_neg isWsChar body ';' (by decide)

theorem rstripSemi_body_semi (body : List Char) (hsemi : body.getLast? ≠ some ';') :
    rstripSemi (body ++ [';']) = body := by
  unfold rstripSemi
  rw [List.rdropWhile_concat_pos (fun x => x == ';') body ';' (by decide)]
  rw [List.rdropWhile_eq_self_iff]
  intro hl hp
  apply hsemi
  have h1 : body.getLast? = some (body.getLast hl) := List.getLast?_eq_getLast body hl
  have h2 : body.getLast hl = ';' := by simpa using hp
  rw [h1, h2]

/-- Counterexample for C4.  The declaration pattern is removed
everywhere in the payload, not only as an anchored leading prefix: in
`let X = {"s": "let X = 1"};` the `re.sub` also removes the occurrence
inside the string literal, so the loader yields `{"s": "1"}`, not the
`{"s": "let X = 1"}` an anchored strip would produce. -/
theorem spec_C4_counterexample :
    load_js_object "let X = \x7b\"s\": \"let X = 1\"\x7d;".data "X".data =
      some (Json.obj [("s", Json.str "1")]) ∧
    Json.obj [("s", Json.str "1")] ≠ Json.obj [("s", Json.str "let X = 1")] := by
  refine ⟨rfl, ?_⟩
  intro h
  have h1 := congrArg (fun j => match j with
    | Json.obj (("s", Json.str s) :: _) => s
    | _ => "") h
  simp only [] at h1
  exact absurd h1 (by decide)

/-- C4 (amended).  On a well-formed payload
`let NAME = BODY;` — word-character name, body free of further
occurrences of either pattern, not whitespace-led, not
semicolon-trailed — the loader strips the declaration prefix, the
trailing terminator, and parses the body; occurrences of the
declaration or export patterns elsewhere in the payload would also be
removed, since neither substitution is anchored. -/
theorem spec_C4_amended (name body : List Char)
    (hn : name ≠ []) (hw : ∀ c ∈ name, isWordChar c = true)
    (hb : wsRun (body ++ [';']) = 0)
    (hsemi : body.getLast? ≠ some ';')
    (hlet : hasLetMatch name (some ' ') (body ++ [';']) = false)
    (hexp : hasExportMatch name (body ++ [';']) = false) :
    load_js_object (['l', 'e', 't', ' '] ++ name ++ [' ', '=', ' '] ++ body ++ [';']) name =
      jsonParse body := by
  unfold load_js_object
  rw [subLet_decl name body hn hw hb hlet]
  have hexp2 : subExport name (body ++ [';']) = body ++ [';'] := by
    unfold subExport
    exact subExportAux_no_match name _ _ hexp
  rw [hexp2, stripWs_body_semi body hb, rstripSemi_body_semi body hsemi]

/-- Witness for the amended C4 at name `X` and body `{"a":2}`. -/
theorem spec_C4_amended_witness :
    ("X".data ≠ [] ∧ (∀ c ∈ "X".data, isWordChar c = true) ∧
      wsRun ("\x7b\"a\":2\x7d".data ++ [';']) = 0 ∧
      "\x7b\"a\":2\x7d".data.getLast? ≠ some ';' ∧
      hasLetMatch "X".data (some ' ') ("\x7b\"a\":2\x7d".data ++ [';']) = false ∧
      hasExportMatch "X".data ("\x7b\"a\":2\x7d".data ++ [';']) = false) ∧
    load_js_object
        (['l', 'e', 't', ' '] ++ "X".data ++ [' ', '=', ' '] ++ "\x7b\"a\":2\x7d".data ++ [';'])
        "X".data =
      jsonParse "\x7b\"a\":2\x7d".data :=
  ⟨⟨by decide, by decide, by decide, by decide, by decide, by decide⟩,
   spec_C4_amended "X".data "\x7b\"a\":2\x7d".data (by decide) (by decide) (by decide)
     (by decide) (by decide) (by decide)⟩
